import Mathlib

/-!
# al-master: the bucket index and the pipelined dispatch of `server.go`

A shallow embedding of `step`, `processReturnedBatches`, `callCIS` and `Run`
of `server.go`, with the state they act on made explicit.

* A Go `map[BucketKey][]*proto.Cell` is an association list with one entry per
  key; the iteration order of a Go map is unspecified, the list order stands for
  one such order.
* Positions of cells are integers (the floating point coordinates of
  `proto.Cell` are not modelled); every other field of a cell is carried by `tag`.
* Goroutines started with `go s.callCIS(...)` are recorded as calls on the slot
  they were started against; the batches a step receives from its result channel
  are given explicitly, in their order of arrival.
* The dispatch loop of `step` and the consumer goroutine write disjoint parts of
  the state until `Cycle` runs, so the loop is run first. `step` calls `Cycle`
  while the consumer goroutine may still be running: the point at which `Cycle`
  falls among the statements of the consumer is a parameter of `stepWith`.
* Functions that `server.go` calls and does not define are modelled from the
  specification; their doc comments say so.
-/

namespace AlMaster

/-! ## Data model -/

/-- A bucket key: the integer coordinates `(bx, by, bz)` of a cubic region. -/
abbrev BucketKey := Int × Int × Int

/-- A cell as the master sees it: a position and the fields it carries along. -/
structure Cell where
  x : Int
  y : Int
  z : Int
  tag : Nat
  deriving DecidableEq, Repr

/-- The type `Buckets` of the source, `map[BucketKey][]*proto.Cell`. -/
abbrev Buckets := List (BucketKey × List Cell)

/-- The message `proto.CellComputeBatch`, sent to a worker and returned by it. -/
structure CellComputeBatch where
  CellsToCompute : List Cell
  CellsInProximity : List Cell
  TimeStep : Nat
  BatchKey : BucketKey
  deriving DecidableEq, Repr

/-- The map read `buckets[key]` with its presence flag. -/
def Buckets.find : Buckets → BucketKey → Option (List Cell)
  | [], _ => none
  | (k, v) :: rest, key => if k = key then some v else Buckets.find rest key

/-- The cells under `key`, none when the map has no such bucket. -/
def Buckets.cellsAt (b : Buckets) (key : BucketKey) : List Cell := (b.find key).getD []

/-- The keys of a bucket map. -/
def Buckets.keys (b : Buckets) : List BucketKey := b.map Prod.fst

/-- Appends `cells` to the bucket under `key`, creating the bucket when the map
has none under that key. -/
def Buckets.add : Buckets → BucketKey → List Cell → Buckets
  | [], key, cells => [(key, cells)]
  | (k, v) :: rest, key, cells =>
    if k = key then (k, v ++ cells) :: rest else (k, v) :: Buckets.add rest key cells

/-- Modelled from the spec: `BucketOf`, not defined in `server.go`. A cell at
`(x, y, z)` belongs to bucket `(⌊x/W⌋, ⌊y/W⌋, ⌊z/W⌋)`; on integers `/` rounds
down for a positive width. -/
def bucketKeyFor (c : Cell) (width : Nat) : BucketKey :=
  (c.x / (width : Int), c.y / (width : Int), c.z / (width : Int))

/-- Modelled from the spec: `CreateBuckets` (the spec's `Build`), not defined in
`server.go`. It groups the cells by computed key; a group without a cell is
never created. -/
def CreateBuckets (cells : List Cell) (width : Nat) : Buckets :=
  cells.foldl (fun b c => b.add (bucketKeyFor c width) [c]) []

/-- Modelled from the spec: `Buckets.Merge`, not defined in `server.go`. Every
bucket of `src` is moved into `dst`; under a key that `dst` already has the
cells are appended (scenario S2 of the spec: two origins contribute to one
bucket and its size is the sum). -/
def Buckets.Merge (dst src : Buckets) : Buckets :=
  src.foldl (fun d p => d.add p.1 p.2) dst

/-- Modelled from the spec: `Buckets.AllCells`, not defined in `server.go`:
the cells of all buckets. -/
def Buckets.AllCells (b : Buckets) : List Cell :=
  b.foldl (fun acc p => acc ++ p.2) []

/-- The 26 offsets with components in `{-1, 0, 1}`, the centre excluded. -/
def neighbourOffsets : List BucketKey :=
  [(-1, -1, -1), (-1, -1, 0), (-1, -1, 1), (-1, 0, -1), (-1, 0, 0), (-1, 0, 1),
   (-1, 1, -1), (-1, 1, 0), (-1, 1, 1),
   (0, -1, -1), (0, -1, 0), (0, -1, 1), (0, 0, -1), (0, 0, 1),
   (0, 1, -1), (0, 1, 0), (0, 1, 1),
   (1, -1, -1), (1, -1, 0), (1, -1, 1), (1, 0, -1), (1, 0, 0), (1, 0, 1),
   (1, 1, -1), (1, 1, 0), (1, 1, 1)]

/-- Modelled from the spec: `BucketKey.SurroundingKeys` (the spec's `Neighbors`),
not defined in `server.go`: all triples `(bx+dx, by+dy, bz+dz)` with
`dx, dy, dz` in `{-1, 0, +1}`, `(0, 0, 0)` excluded. The source passes the bucket
width at every call; the enumeration of the spec does not depend on it. -/
def SurroundingKeys (key : BucketKey) (_width : Nat) : List BucketKey :=
  neighbourOffsets.map (fun o => (key.1 + o.1, key.2.1 + o.2.1, key.2.2 + o.2.2))

/-! ## Simulation state -/

/-- Modelled from the spec: the per-step slot (`StepSlot`), not defined in
`server.go`: the wait counter, the calls started against the slot (their
results are what its result channel receives) and the in-flight keys. -/
structure StepState where
  wg : Int
  calls : List CellComputeBatch
  requestsInflight : List BucketKey
  deriving DecidableEq, Repr

/-- A fresh slot: counter zero, no call, nothing in flight. -/
def newStepState : StepState := ⟨0, [], []⟩

/-- What the server does that an observer sees, in order. -/
inductive Event where
  | cycle
  | broadcast (cells : List Cell)
  | closeConnections
  | saveState
  deriving DecidableEq, Repr

/-- The fields of `Server` and `SimulationState` that the step loop reads and
writes. `TimeStep` is an unbounded counter (its declaration is not in
`server.go`). `dispatched` records every `go s.callCIS(batch, ...)` ever issued
and `events` the observable actions; neither is read by the program. -/
structure Server where
  BucketWidth : Nat
  TimeStep : Nat
  CellBuckets : Buckets
  current : StepState
  next : StepState
  dispatched : List CellComputeBatch
  events : List Event
  deriving DecidableEq, Repr

/-- Modelled from the spec: `NewSimulationState(buckets)`, not defined in
`server.go`: time step zero and two fresh slots. -/
def NewSimulationState (width : Nat) (buckets : Buckets) : Server :=
  { BucketWidth := width, TimeStep := 0, CellBuckets := buckets,
    current := newStepState, next := newStepState, dispatched := [], events := [] }

/-- Modelled from the spec: `RequestInflightFromLastStep`, not defined in
`server.go` (`IsInflight(current, k)`). -/
def Server.RequestInflightFromLastStep (s : Server) (key : BucketKey) : Bool :=
  decide (key ∈ s.current.requestsInflight)

/-- Modelled from the spec: `RequestInflight`, not defined in `server.go`
(`IsInflight(next, k)`). -/
def Server.RequestInflight (s : Server) (key : BucketKey) : Bool :=
  decide (key ∈ s.next.requestsInflight)

/-- Modelled from the spec: `MarkRequestInflight`, not defined in `server.go`
(`MarkInflight(next, k)`). -/
def Server.MarkRequestInflight (s : Server) (key : BucketKey) : Server :=
  { s with next := { s.next with requestsInflight := s.next.requestsInflight ++ [key] } }

/-- Modelled from the spec: `Cycle`, not defined in `server.go`: the next slot
becomes the current one and a new empty next slot is allocated. The bucket map
is replaced by `processReturnedBatches` itself (`s.CellBuckets = nextBuckets`). -/
def Server.Cycle (s : Server) : Server :=
  { s with current := s.next, next := newStepState, events := s.events ++ [Event.cycle] }

/-- The statements `s.CurrentWaitGroup().Add(1); go s.callCIS(batch,
s.CurrentWaitGroup(), s.CurrentReturnedBatchChan())` of `step`. -/
def Server.dispatchCurrent (s : Server) (batch : CellComputeBatch) : Server :=
  { s with current := { s.current with wg := s.current.wg + 1,
                                        calls := s.current.calls ++ [batch] },
           dispatched := s.dispatched ++ [batch] }

/-- The statements `s.NextWaitGroup().Add(1); go s.callCIS(batch,
s.NextWaitGroup(), s.NextReturnedBatchChan())` of `processReturnedBatches`. -/
def Server.dispatchNext (s : Server) (batch : CellComputeBatch) : Server :=
  { s with next := { s.next with wg := s.next.wg + 1,
                                  calls := s.next.calls ++ [batch] },
           dispatched := s.dispatched ++ [batch] }

/-! ## The dispatch loop of `step` -/

/-- The inner loop of `step`: the buckets of the neighbours of `key` that exist
in `buckets`, appended in the order of `SurroundingKeys`. -/
def surroundingCellsOf (buckets : Buckets) (key : BucketKey) (width : Nat) : List Cell :=
  (SurroundingKeys key width).foldl
    (fun surroundingCells otherKey =>
      match buckets.find otherKey with
      | some otherBucket => surroundingCells ++ otherBucket
      | none => surroundingCells) []

/-- The batch that `step` builds for one entry of the bucket map. -/
def currentBatch (s : Server) (entry : BucketKey × List Cell) : CellComputeBatch :=
  { CellsToCompute := entry.2,
    CellsInProximity := surroundingCellsOf s.CellBuckets entry.1 s.BucketWidth,
    TimeStep := s.TimeStep,
    BatchKey := entry.1 }

/-- One iteration of `for key, bucket := range s.CellBuckets` in `step`. -/
def dispatchOne (s : Server) (entry : BucketKey × List Cell) : Server :=
  if s.RequestInflightFromLastStep entry.1 then s
  else s.dispatchCurrent (currentBatch s entry)

/-- The dispatch loop of `step`. -/
def dispatchLoop (s : Server) : Server :=
  s.CellBuckets.foldl dispatchOne s

/-! ## The result consumer `processReturnedBatches` -/

/-- The server together with the two locals of `processReturnedBatches`. -/
structure Consumer where
  server : Server
  nextBuckets : Buckets
  doneNeighbourBuckets : BucketKey → Nat

/-- The batch that the lookahead builds for `key` from `nextBuckets`; `bucket` is
`nextBuckets[key]`. A missing neighbour bucket reads as the empty slice. -/
def nextBatch (st : Consumer) (key : BucketKey) (bucket : List Cell) : CellComputeBatch :=
  { CellsToCompute := bucket,
    CellsInProximity :=
      (SurroundingKeys key st.server.BucketWidth).foldl
        (fun surroundingCells surroundingKey =>
          surroundingCells ++ st.nextBuckets.cellsAt surroundingKey) [],
    TimeStep := st.server.TimeStep + 1,
    BatchKey := key }

/-- The body of `for _, key := range keysToCheck`. -/
def checkKey (st : Consumer) (key : BucketKey) : Consumer :=
  let done := Function.update st.doneNeighbourBuckets key (st.doneNeighbourBuckets key + 1)
  let st1 : Consumer := { st with doneNeighbourBuckets := done }
  match st.nextBuckets.find key with
  | none => st1
  | some bucket =>
    if bucket.length = 0 ∨ done key < 27 ∨ st.server.RequestInflight key = true then st1
    else
      { st1 with
        server := (st.server.dispatchNext (nextBatch st key bucket)).MarkRequestInflight key }

/-- The keys checked for one returned batch:
`append(bucketKey.SurroundingKeys(s.BucketWidth), bucketKey)`. -/
def keysToCheck (bucketKey : BucketKey) (width : Nat) : List BucketKey :=
  SurroundingKeys bucketKey width ++ [bucketKey]

/-- The first two statements of the body of `for returnedBatch := range
returnedBatchChan`: the returned cells are bucketed and merged. -/
def mergeReturned (st : Consumer) (returnedBatch : CellComputeBatch) : Consumer :=
  { st with nextBuckets :=
      st.nextBuckets.Merge (CreateBuckets returnedBatch.CellsToCompute st.server.BucketWidth) }

/-- The body of `for returnedBatch := range returnedBatchChan`. -/
def processBatch (st : Consumer) (returnedBatch : CellComputeBatch) : Consumer :=
  (keysToCheck returnedBatch.BatchKey st.server.BucketWidth).foldl checkKey
    (mergeReturned st returnedBatch)

/-- The locals of `processReturnedBatches` when it starts. -/
def startConsumer (s : Server) : Consumer :=
  { server := s, nextBuckets := [], doneNeighbourBuckets := fun _ => 0 }

/-- The loop of `processReturnedBatches` over the batches received. -/
def consume (s : Server) (returned : List CellComputeBatch) : Consumer :=
  returned.foldl processBatch (startConsumer s)

/-- The function `processReturnedBatches` run on its own, no `Cycle` falling in
its loop: the loop, then `s.CellBuckets = nextBuckets`. Inside a step the loop is
run by `consumeWithCycle`. -/
def processReturnedBatches (s : Server) (returned : List CellComputeBatch) : Server :=
  let st := consume s returned
  { st.server with CellBuckets := st.nextBuckets }

/-- The calls that the lookahead issues against the next slot while the batches
`returned` are consumed. -/
def lookaheadCalls (s : Server) (returned : List CellComputeBatch) : List CellComputeBatch :=
  (consume s returned).server.next.calls.drop s.next.calls.length

/-- The calls that the lookahead issues while the one batch `returnedBatch` is
processed from the state `st`. -/
def lookaheadCallsOf (st : Consumer) (returnedBatch : CellComputeBatch) :
    List CellComputeBatch :=
  (processBatch st returnedBatch).server.next.calls.drop st.server.next.calls.length

/-- All cells of a sequence of returned batches, in order of arrival. -/
def cellsOf (returned : List CellComputeBatch) : List Cell :=
  returned.flatMap (fun b => b.CellsToCompute)

/-- What no iteration of the lookahead writes. -/
def Consumer.sameFrame (a b : Consumer) : Prop :=
  b.nextBuckets = a.nextBuckets ∧ b.server.BucketWidth = a.server.BucketWidth ∧
  b.server.TimeStep = a.server.TimeStep ∧ b.server.CellBuckets = a.server.CellBuckets ∧
  b.server.current = a.server.current ∧ b.server.events = a.server.events

/-- The batches that the dispatch loop of `step` issues over `entries`: one for
every entry whose key is not in flight from the last step. -/
def loopBatches (s : Server) (entries : List (BucketKey × List Cell)) : List CellComputeBatch :=
  (entries.filter (fun e => decide (e.1 ∉ s.current.requestsInflight))).map (currentBatch s)

/-- The time step and key of every call ever issued. -/
def Server.dispatchedKeys (s : Server) : List (Nat × BucketKey) :=
  s.dispatched.map (fun d => (d.TimeStep, d.BatchKey))

/-- The in-flight discipline between two steps, which a step keeps when `Cycle`
finds the consumer idle: the bucket map has one entry per key, no two calls were
issued for the same key and time step, no call is for a later time step than the
current one, and every call already issued for the current time step has its key
in flight on the current slot. -/
def Server.Inv (s : Server) : Prop :=
  s.CellBuckets.keys.Nodup ∧ s.dispatchedKeys.Nodup ∧
  (∀ d ∈ s.dispatched, d.TimeStep ≤ s.TimeStep) ∧
  (∀ d ∈ s.dispatched, d.TimeStep = s.TimeStep → d.BatchKey ∈ s.current.requestsInflight)

/-- The in-flight discipline while the batches of step `t` are consumed, the
consumer running on its own slots. -/
def Server.ConsumerInv (s : Server) (t : Nat) : Prop :=
  s.TimeStep = t ∧ s.dispatchedKeys.Nodup ∧
  (∀ d ∈ s.dispatched, d.TimeStep ≤ t + 1) ∧
  (∀ d ∈ s.dispatched, d.TimeStep = t + 1 → d.BatchKey ∈ s.next.requestsInflight)

/-- The consumer inside the processing of the returned batch `b`, received after
the batches `pre`: the cells of `b` are merged and the keys `ks`, the first of
`keysToCheck`, are checked. -/
def midState (s : Server) (pre : List CellComputeBatch) (b : CellComputeBatch)
    (ks : List BucketKey) : Consumer :=
  ks.foldl checkKey (mergeReturned (consume s pre) b)

/-- The lookahead dispatch predicate of the code for `key`, read once its counter
has been incremented to `count`: the check goes on to dispatch unless
`!exists`, `len(bucket) == 0`, `doneNeighbourBuckets[key] < 27` or
`s.RequestInflight(key)`. -/
def lookaheadPredicate (st : Consumer) (key : BucketKey) (count : Nat) : Prop :=
  (∃ bucket, st.nextBuckets.find key = some bucket ∧ bucket ≠ []) ∧ 27 ≤ count ∧
    key ∉ st.server.next.requestsInflight

/-- The lookahead dispatch predicate in the words of the specification: the bucket
exists and is not empty, `returnedNeighborCount[k] == 27` and the key is not in
`next.inflight`. -/
def specPredicate (st : Consumer) (key : BucketKey) (count : Nat) : Prop :=
  (∃ bucket, st.nextBuckets.find key = some bucket ∧ bucket ≠ []) ∧ count = 27 ∧
    key ∉ st.server.next.requestsInflight

/-- One statement of the loop of `processReturnedBatches`, as far as the other
goroutine can tell them apart: the merge of a returned batch, or the check of
one key. -/
inductive ConsumerAction where
  | merge (returnedBatch : CellComputeBatch)
  | check (key : BucketKey)
  deriving DecidableEq, Repr

/-- The consumer executes one statement. -/
def Consumer.act (st : Consumer) : ConsumerAction → Consumer
  | ConsumerAction.merge returnedBatch => mergeReturned st returnedBatch
  | ConsumerAction.check key => checkKey st key

/-- The consumer executes a sequence of statements. -/
def Consumer.run (st : Consumer) (actions : List ConsumerAction) : Consumer :=
  actions.foldl Consumer.act st

/-- The statements of the loop body for one returned batch: the merge, then the
check of each key of `keysToCheck`. -/
def batchActions (width : Nat) (returnedBatch : CellComputeBatch) : List ConsumerAction :=
  ConsumerAction.merge returnedBatch ::
    (keysToCheck returnedBatch.BatchKey width).map ConsumerAction.check

/-- The statements of the loop of `processReturnedBatches` over the batches
received, in order. -/
def consumerActions (width : Nat) (returned : List CellComputeBatch) : List ConsumerAction :=
  returned.flatMap (batchActions width)

/-! ## `step` and `Run` -/

/-- A worker: the cells it computes for a batch. -/
abbrev Worker := CellComputeBatch → List Cell

/-- The batch a successful `callCIS` pushes on the result channel: the cells the
worker computed, under the batch key it echoes. -/
def callWorker (worker : Worker) (batch : CellComputeBatch) : CellComputeBatch :=
  { CellsToCompute := worker batch, CellsInProximity := [],
    TimeStep := batch.TimeStep, BatchKey := batch.BatchKey }

/-- The function `broadcastCurrentState`. -/
def Server.broadcastCurrentState (s : Server) : Server :=
  { s with events := s.events ++ [Event.broadcast s.CellBuckets.AllCells] }

/-- The calls `wg.Done()` of the `n` instances of `callCIS` that have pushed their
result on the channel of the current slot. -/
def Server.doneCurrent (s : Server) (n : Nat) : Server :=
  { s with current := { s.current with wg := s.current.wg - n } }

/-- The consumer goroutine and the call `s.Cycle()` of `step`: the consumer runs
the first `cycleAt` statements of its loop, `Cycle` swaps the slots, and the
consumer runs the statements left on the swapped slots. -/
def consumeWithCycle (s : Server) (actions : List ConsumerAction) (cycleAt : Nat) : Consumer :=
  let st1 := (startConsumer s).run (actions.take cycleAt)
  let st2 : Consumer := { st1 with server := st1.server.Cycle }
  st2.run (actions.drop cycleAt)

/-- The function `step`. `arrivals` lists the calls on the current slot in the
order in which their results are received; every such call has sent its result
and called `wg.Done()` when `Wait` returns. The source then calls `s.Cycle()` and
only afterwards waits on `doneChan`: the consumer goroutine is still running when
the slots are swapped. `cycleAt` is the number of statements of its loop that the
consumer has executed when `Cycle` runs; the statements left run on the swapped
slots. With `cycleAt` at least the number of statements, the consumer is idle when
`Cycle` runs. After the loop the consumer assigns `s.CellBuckets = nextBuckets`
and signals `doneChan`; then the time step is incremented and the state
broadcast. -/
def stepWith (worker : Worker) (arrivals : List CellComputeBatch) (cycleAt : Nat)
    (s : Server) : Server :=
  let s2 := (dispatchLoop s).doneCurrent arrivals.length
  let st := consumeWithCycle s2
    (consumerActions s2.BucketWidth (arrivals.map (callWorker worker))) cycleAt
  let s3 : Server := { st.server with CellBuckets := st.nextBuckets }
  let s4 : Server := { s3 with TimeStep := s3.TimeStep + 1 }
  s4.broadcastCurrentState

/-- The function `closeConnections`. -/
def Server.closeConnections (s : Server) : Server :=
  { s with events := s.events ++ [Event.closeConnections] }

/-- The function `shutdown`: the connections are closed, then `saveState` is called. -/
def Server.shutdown (s : Server) : Server :=
  let s1 := s.closeConnections
  { s1 with events := s1.events ++ [Event.saveState] }

/-- The loop of `Run`. Each element of `ticks` describes one iteration: whether a
signal is buffered in `signals` when the iteration tests `len(signals) != 0`,
and, for the step of that iteration, the order of arrival and the point at which
`Cycle` runs. The result is `none` when the loop is still running after the
iterations described. -/
def Run (worker : Worker) :
    List (Bool × List CellComputeBatch × Nat) → Server → Option Server
  | [], s =>
    if s.CellBuckets.AllCells.length = 0 then some s.closeConnections else none
  | (signalPending, arrivals, cycleAt) :: ticks, s =>
    if s.CellBuckets.AllCells.length = 0 then some s.closeConnections
    else if signalPending then some s.shutdown
    else Run worker ticks (stepWith worker arrivals cycleAt s)

/-! ## Scenarios -/

/-- The worker that returns the cells it was given. -/
def echoWorker : Worker := fun batch => batch.CellsToCompute

/-- The seed of scenarios S1 and S2, three cells for width 10. -/
def seedCells : List Cell := [⟨1, 1, 1, 0⟩, ⟨2, 2, 2, 1⟩, ⟨11, 1, 1, 2⟩]

/-- The server of scenarios S1 and S2. -/
def seedServer : Server := NewSimulationState 10 (CreateBuckets seedCells 10)

/-- The worker of scenario S2: it moves the cell at `(2, 2, 2)` to `(12, 2, 2)`. -/
def movingWorker : Worker := fun batch =>
  batch.CellsToCompute.map
    (fun c => if c.x = 2 ∧ c.y = 2 ∧ c.z = 2 then { c with x := 12 } else c)

/-- The server of scenario S5: one bucket with one cell, no other bucket. -/
def loneServer : Server := NewSimulationState 10 [((0, 0, 0), [⟨1, 1, 1, 0⟩])]

/-- The batch an echoing worker returns for the bucket of `loneServer`. -/
def loneReturned : CellComputeBatch := ⟨[⟨1, 1, 1, 0⟩], [], 0, (0, 0, 0)⟩

/-- A cell inside the bucket `k`, for width 10. -/
def blockCell (k : BucketKey) : Cell := ⟨10 * k.1 + 1, 10 * k.2.1 + 1, 10 * k.2.2 + 1, 0⟩

/-- The 27 keys of the closed neighbourhood of `(0, 0, 0)`. -/
def blockKeys : List BucketKey := keysToCheck (0, 0, 0) 10

/-- A server whose 27 buckets around `(0, 0, 0)` hold one cell each. -/
def blockServer : Server := NewSimulationState 10 (CreateBuckets (blockKeys.map blockCell) 10)

/-- The batches an echoing worker returns for the 27 buckets of `blockServer`. -/
def blockReturned : List CellComputeBatch :=
  blockKeys.map (fun k => ⟨[blockCell k], [], 0, k⟩)

/-- The batches returned for the 27 buckets of `blockServer` when the worker of
the bucket `(0, 0, 0)` returns no cell and the others echo. -/
def hollowReturned : List CellComputeBatch :=
  blockKeys.map (fun k => ⟨if k = (0, 0, 0) then [] else [blockCell k], [], 0, k⟩)

/-- A second batch of origin `(1, 0, 0)`, with a cell that lies in the bucket
`(0, 0, 0)`. -/
def dupReturned : CellComputeBatch := ⟨[⟨2, 2, 2, 7⟩], [], 0, (1, 0, 0)⟩

/-- A batch of origin `(2, 0, 0)`, outside the 27 buckets of `blockServer`, whose
worker moved its cell into the neighbouring bucket `(1, 0, 0)`. -/
def lateReturned : CellComputeBatch := ⟨[⟨12, 2, 2, 8⟩], [], 0, (2, 0, 0)⟩

/-- A batch from the distant origin `(5, 0, 0)` whose worker moved its cell into the
bucket `(0, 0, 0)`. -/
def farReturned : CellComputeBatch := ⟨[⟨2, 2, 2, 7⟩], [], 0, (5, 0, 0)⟩

/-! ## `callCIS` and the client pool -/

/-- A client handle of the pool. -/
structure Client where
  id : Nat
  deriving DecidableEq, Repr

/-- Modelled from the spec: the pool `CISClientPool`, not defined in `server.go`,
is a queue of client handles: `GetClient` takes the first one and blocks when
there is none, `AddClient` puts one at the end. The other fields are what one
`callCIS` reads and writes; `attempts` counts the calls of
`ComputeCellInteractions`. -/
structure CallState where
  pool : List Client
  returnedBatchChan : List CellComputeBatch
  wg : Int
  attempts : Nat
  CISCallCounter : Nat
  CISClientCount : Int
  deriving DecidableEq, Repr

/-- The outcome of `c.ComputeCellInteractions(ctx, batch)` for the attempt with
the given number: the returned batch, or `none` for an error (a timeout
included). -/
abbrev Rpc := Nat → Client → CellComputeBatch → Option CellComputeBatch

/-- The loop `for looping` of `callCIS`; `pool` is the pool when the iteration
starts. The result is `none` when `GetClient` finds the pool empty: the call
blocks there. -/
def callCISLoop (rpc : Rpc) (batch : CellComputeBatch) :
    List Client → CallState → Option CallState
  | [], _ => none
  | c :: rest, st =>
    match rpc st.attempts c batch with
    | some returnedBatch =>
      some { st with pool := rest ++ [c],
                     returnedBatchChan := st.returnedBatchChan ++ [returnedBatch],
                     attempts := st.attempts + 1 }
    | none =>
      callCISLoop rpc batch rest
        { st with pool := rest, attempts := st.attempts + 1,
                  CISClientCount := st.CISClientCount - 1 }

/-- The function `callCIS`: the call counter, the retry loop, then `wg.Done()`. -/
def callCIS (rpc : Rpc) (batch : CellComputeBatch) (st : CallState) : Option CallState :=
  match callCISLoop rpc batch st.pool { st with CISCallCounter := st.CISCallCounter + 1 } with
  | none => none
  | some st1 => some { st1 with wg := st1.wg - 1 }

/-! ## Facts about the neighbourhood -/

theorem neighbourOffsets_neg :
    ∀ o ∈ neighbourOffsets, (-o.1, -o.2.1, -o.2.2) ∈ neighbourOffsets := by decide

theorem neighbourOffsets_nodup : neighbourOffsets.Nodup := by decide

theorem zero_not_mem_neighbourOffsets : ((0, 0, 0) : BucketKey) ∉ neighbourOffsets := by decide

theorem mem_SurroundingKeys (a k : BucketKey) (w : Nat) :
    a ∈ SurroundingKeys k w ↔ (a.1 - k.1, a.2.1 - k.2.1, a.2.2 - k.2.2) ∈ neighbourOffsets := by
  obtain ⟨a1, a2, a3⟩ := a
  obtain ⟨k1, k2, k3⟩ := k
  simp only [SurroundingKeys, List.mem_map]
  constructor
  · rintro ⟨⟨o1, o2, o3⟩, ho, h⟩
    simp only [Prod.mk.injEq] at h
    obtain ⟨h1, h2, h3⟩ := h
    have e1 : a1 - k1 = o1 := by omega
    have e2 : a2 - k2 = o2 := by omega
    have e3 : a3 - k3 = o3 := by omega
    rw [e1, e2, e3]
    exact ho
  · intro h
    refine ⟨(a1 - k1, a2 - k2, a3 - k3), h, ?_⟩
    simp

theorem SurroundingKeys_symm (a k : BucketKey) (w : Nat) :
    a ∈ SurroundingKeys k w ↔ k ∈ SurroundingKeys a w := by
  have key : ∀ a k : BucketKey, a ∈ SurroundingKeys k w → k ∈ SurroundingKeys a w := by
    intro a k h
    rw [mem_SurroundingKeys] at h ⊢
    have h2 := neighbourOffsets_neg _ h
    simpa using h2
  exact ⟨key a k, key k a⟩

theorem self_not_mem_SurroundingKeys (k : BucketKey) (w : Nat) : k ∉ SurroundingKeys k w := by
  rw [mem_SurroundingKeys]
  simpa using zero_not_mem_neighbourOffsets

theorem SurroundingKeys_length (k : BucketKey) (w : Nat) : (SurroundingKeys k w).length = 26 := by
  simp [SurroundingKeys, neighbourOffsets]

theorem SurroundingKeys_nodup (k : BucketKey) (w : Nat) : (SurroundingKeys k w).Nodup := by
  unfold SurroundingKeys
  refine List.Nodup.map ?_ neighbourOffsets_nodup
  rintro ⟨a1, a2, a3⟩ ⟨b1, b2, b3⟩ h
  simp only [Prod.mk.injEq] at h ⊢
  omega

theorem keysToCheck_length (k : BucketKey) (w : Nat) : (keysToCheck k w).length = 27 := by
  simp [keysToCheck, SurroundingKeys_length]

theorem keysToCheck_nodup (k : BucketKey) (w : Nat) : (keysToCheck k w).Nodup := by
  unfold keysToCheck
  rw [List.nodup_append]
  refine ⟨SurroundingKeys_nodup k w, List.nodup_singleton k, ?_⟩
  intro a ha hb
  simp only [List.mem_singleton] at hb
  subst hb
  exact self_not_mem_SurroundingKeys _ w ha

theorem mem_keysToCheck (a k : BucketKey) (w : Nat) :
    a ∈ keysToCheck k w ↔ a ∈ SurroundingKeys k w ∨ a = k := by
  simp [keysToCheck]

theorem keysToCheck_symm (a k : BucketKey) (w : Nat) :
    a ∈ keysToCheck k w ↔ k ∈ keysToCheck a w := by
  rw [mem_keysToCheck, mem_keysToCheck, SurroundingKeys_symm a k w]
  constructor <;> rintro (h | h) <;> [exact Or.inl h; exact Or.inr h.symm; exact Or.inl h; exact Or.inr h.symm]

/-! ## Facts about bucket maps -/

theorem Buckets.mem_keys_iff (b : Buckets) (k : BucketKey) : k ∈ b.keys ↔ b.find k ≠ none := by
  induction b with
  | nil => simp [Buckets.keys, Buckets.find]
  | cons p rest ih =>
    obtain ⟨k1, v1⟩ := p
    simp only [Buckets.keys, List.map_cons, List.mem_cons, Buckets.find] at ih ⊢
    by_cases h : k1 = k
    · simp [h]
    · have h2 : ¬ k = k1 := fun e => h e.symm
      simp [h, h2, ih]

theorem Buckets.find_add_self (b : Buckets) (k : BucketKey) (cs : List Cell) :
    (b.add k cs).find k = some (b.cellsAt k ++ cs) := by
  induction b with
  | nil => simp [Buckets.add, Buckets.find, Buckets.cellsAt]
  | cons p rest ih =>
    obtain ⟨k1, v1⟩ := p
    by_cases h : k1 = k
    · simp [Buckets.add, Buckets.find, Buckets.cellsAt, h]
    · simp only [Buckets.cellsAt] at ih
      simp [Buckets.add, Buckets.find, Buckets.cellsAt, h, ih]

theorem Buckets.find_add_ne (b : Buckets) (k k2 : BucketKey) (cs : List Cell) (hne : k ≠ k2) :
    (b.add k cs).find k2 = b.find k2 := by
  induction b with
  | nil => simp [Buckets.add, Buckets.find, hne]
  | cons p rest ih =>
    obtain ⟨k1, v1⟩ := p
    by_cases h : k1 = k
    · subst h
      simp [Buckets.add, Buckets.find, hne]
    · by_cases h2 : k1 = k2
      · subst h2
        simp [Buckets.add, Buckets.find, h]
      · simp [Buckets.add, Buckets.find, h, h2, ih]

theorem Buckets.keys_add (b : Buckets) (k : BucketKey) (cs : List Cell) :
    (b.add k cs).keys = if k ∈ b.keys then b.keys else b.keys ++ [k] := by
  induction b with
  | nil => simp [Buckets.add, Buckets.keys]
  | cons p rest ih =>
    obtain ⟨k1, v1⟩ := p
    simp only [Buckets.keys] at ih
    by_cases h : k1 = k
    · simp [Buckets.add, Buckets.keys, h]
    · have h2 : ¬ k = k1 := fun e => h e.symm
      by_cases h3 : k ∈ List.map Prod.fst rest
      · simp [Buckets.add, Buckets.keys, h, h2, h3, ih]
      · simp [Buckets.add, Buckets.keys, h, h2, h3, ih]

theorem Buckets.keys_add_nodup (b : Buckets) (k : BucketKey) (cs : List Cell)
    (h : b.keys.Nodup) : (b.add k cs).keys.Nodup := by
  rw [Buckets.keys_add]
  split
  · exact h
  · rename_i hk
    rw [List.nodup_append]
    refine ⟨h, List.nodup_singleton k, ?_⟩
    intro a ha hb
    simp only [List.mem_singleton] at hb
    subst hb
    exact hk ha

/-- Folding `add` of singletons, the loop of `CreateBuckets`, from any map. -/
theorem Buckets.find_foldl_add (w : Nat) (cells : List Cell) (b : Buckets) (k : BucketKey) :
    (cells.foldl (fun b c => b.add (bucketKeyFor c w) [c]) b).find k =
      if cells.filter (fun c => bucketKeyFor c w = k) = [] then b.find k
      else some (b.cellsAt k ++ cells.filter (fun c => bucketKeyFor c w = k)) := by
  induction cells generalizing b with
  | nil => simp
  | cons c cs ih =>
    rw [List.foldl_cons, ih]
    by_cases h : bucketKeyFor c w = k
    · subst h
      simp [List.filter_cons, Buckets.find_add_self, Buckets.cellsAt]
    · simp [List.filter_cons, h, Buckets.find_add_ne _ _ _ _ h, Buckets.cellsAt]

theorem Buckets.keys_foldl_add_nodup (w : Nat) (cells : List Cell) (b : Buckets)
    (h : b.keys.Nodup) :
    (cells.foldl (fun b c => b.add (bucketKeyFor c w) [c]) b).keys.Nodup := by
  induction cells generalizing b with
  | nil => simpa using h
  | cons c cs ih =>
    rw [List.foldl_cons]
    exact ih _ (Buckets.keys_add_nodup _ _ _ h)

theorem find_CreateBuckets (cells : List Cell) (w : Nat) (k : BucketKey) :
    (CreateBuckets cells w).find k =
      if cells.filter (fun c => bucketKeyFor c w = k) = [] then none
      else some (cells.filter (fun c => bucketKeyFor c w = k)) := by
  unfold CreateBuckets
  rw [Buckets.find_foldl_add]
  simp [Buckets.find, Buckets.cellsAt]

theorem keys_CreateBuckets_nodup (cells : List Cell) (w : Nat) :
    (CreateBuckets cells w).keys.Nodup :=
  Buckets.keys_foldl_add_nodup w cells [] (by simp [Buckets.keys])

theorem Buckets.find_Merge (src dst : Buckets) (k : BucketKey) (h : src.keys.Nodup) :
    (dst.Merge src).find k =
      match src.find k with
      | none => dst.find k
      | some v => some (dst.cellsAt k ++ v) := by
  induction src generalizing dst with
  | nil => simp [Buckets.Merge, Buckets.find]
  | cons p rest ih =>
    obtain ⟨k1, v1⟩ := p
    simp only [Buckets.keys, List.map_cons, List.nodup_cons] at h
    have ih2 := ih (dst.add k1 v1) h.2
    simp only [Buckets.Merge, List.foldl_cons] at ih2 ⊢
    rw [ih2]
    by_cases hk : k1 = k
    · subst hk
      have hnone : Buckets.find rest k1 = none := by
        by_contra hc
        exact h.1 ((Buckets.mem_keys_iff rest k1).2 hc)
      simp [Buckets.find, hnone, Buckets.find_add_self]
    · simp [Buckets.find, hk, Buckets.find_add_ne _ _ _ _ hk, Buckets.cellsAt]

theorem Buckets.keys_Merge_nodup (src dst : Buckets) (h : dst.keys.Nodup) :
    (dst.Merge src).keys.Nodup := by
  induction src generalizing dst with
  | nil => simpa [Buckets.Merge] using h
  | cons p rest ih =>
    simp only [Buckets.Merge, List.foldl_cons]
    exact ih _ (Buckets.keys_add_nodup _ _ _ h)

/-! ## One iteration of the lookahead check -/

theorem checkKey_done (st : Consumer) (key : BucketKey) :
    (checkKey st key).doneNeighbourBuckets =
      Function.update st.doneNeighbourBuckets key (st.doneNeighbourBuckets key + 1) := by
  unfold checkKey
  dsimp only
  split
  · rfl
  · split <;> rfl

theorem checkKey_nextBuckets (st : Consumer) (key : BucketKey) :
    (checkKey st key).nextBuckets = st.nextBuckets := by
  unfold checkKey
  dsimp only
  split
  · rfl
  · split <;> rfl

theorem checkKey_fire (st : Consumer) (key : BucketKey) (bucket : List Cell)
    (h1 : st.nextBuckets.find key = some bucket) (h2 : bucket ≠ [])
    (h3 : 27 ≤ st.doneNeighbourBuckets key + 1)
    (h4 : key ∉ st.server.next.requestsInflight) :
    (checkKey st key).server =
      (st.server.dispatchNext (nextBatch st key bucket)).MarkRequestInflight key := by
  unfold checkKey
  simp only [h1]
  have hlen : ¬ bucket.length = 0 := by
    intro h
    exact h2 (List.length_eq_zero.1 h)
  have hc : ¬ (bucket.length = 0 ∨
      Function.update st.doneNeighbourBuckets key (st.doneNeighbourBuckets key + 1) key < 27 ∨
      st.server.RequestInflight key = true) := by
    simp only [Function.update_same, Server.RequestInflight, decide_eq_true_eq]
    rintro (h | h | h)
    · exact hlen h
    · omega
    · exact h4 h
  rw [if_neg hc]

theorem checkKey_cases (st : Consumer) (key : BucketKey) :
    (checkKey st key).server = st.server ∨
    ∃ bucket, st.nextBuckets.find key = some bucket ∧ bucket ≠ [] ∧
      27 ≤ st.doneNeighbourBuckets key + 1 ∧ key ∉ st.server.next.requestsInflight ∧
      (checkKey st key).server =
        (st.server.dispatchNext (nextBatch st key bucket)).MarkRequestInflight key := by
  unfold checkKey
  dsimp only
  split
  · exact Or.inl rfl
  · rename_i bucket hfind
    split
    · exact Or.inl rfl
    · rename_i hc
      simp only [Function.update_same, Server.RequestInflight, decide_eq_true_eq, not_or,
        not_lt] at hc
      refine Or.inr ⟨bucket, hfind, ?_, hc.2.1, hc.2.2, rfl⟩
      intro h
      exact hc.1 (by simp [h])

theorem checkKey_nofire (st : Consumer) (key : BucketKey)
    (h : ¬ ∃ bucket, st.nextBuckets.find key = some bucket ∧ bucket ≠ [] ∧
      27 ≤ st.doneNeighbourBuckets key + 1 ∧ key ∉ st.server.next.requestsInflight) :
    (checkKey st key).server = st.server := by
  rcases checkKey_cases st key with h1 | ⟨bucket, h1, h2, h3, h4, _⟩
  · exact h1
  · exact absurd ⟨bucket, h1, h2, h3, h4⟩ h

theorem checkKey_frame (st : Consumer) (key : BucketKey) : st.sameFrame (checkKey st key) := by
  refine ⟨checkKey_nextBuckets st key, ?_⟩
  rcases checkKey_cases st key with h | ⟨bucket, _, _, _, _, h⟩ <;> rw [h] <;>
    simp [Server.dispatchNext, Server.MarkRequestInflight]

theorem foldl_checkKey_frame (ks : List BucketKey) (st : Consumer) :
    st.sameFrame (ks.foldl checkKey st) := by
  induction ks generalizing st with
  | nil => simp [Consumer.sameFrame]
  | cons k ks ih =>
    rw [List.foldl_cons]
    obtain ⟨a1, a2, a3, a4, a5, a6⟩ := checkKey_frame st k
    obtain ⟨b1, b2, b3, b4, b5, b6⟩ := ih (checkKey st k)
    exact ⟨b1.trans a1, b2.trans a2, b3.trans a3, b4.trans a4, b5.trans a5, b6.trans a6⟩

theorem foldl_checkKey_done (ks : List BucketKey) (st : Consumer) (k : BucketKey) :
    (ks.foldl checkKey st).doneNeighbourBuckets k =
      st.doneNeighbourBuckets k + ks.countP (fun a => decide (a = k)) := by
  induction ks generalizing st with
  | nil => simp
  | cons a ks ih =>
    rw [List.foldl_cons, ih, checkKey_done]
    by_cases h : a = k
    · subst h
      simp [Function.update_same, List.countP_cons]
      omega
    · have h2 : k ≠ a := fun e => h e.symm
      rw [Function.update_noteq h2]
      simp [List.countP_cons, h]

theorem countP_eq_of_nodup (ks : List BucketKey) (h : ks.Nodup) (k : BucketKey) :
    ks.countP (fun a => decide (a = k)) = if k ∈ ks then 1 else 0 := by
  induction ks with
  | nil => simp
  | cons a ks ih =>
    rw [List.nodup_cons] at h
    rw [List.countP_cons, ih h.2]
    by_cases hk : a = k
    · subst hk
      simp [h.1]
    · have h2 : ¬ k = a := fun e => hk e.symm
      simp [hk, h2]

/-! ## The consumer loop -/

theorem consume_concat (s : Server) (pre : List CellComputeBatch) (b : CellComputeBatch) :
    consume s (pre ++ [b]) = processBatch (consume s pre) b := by
  simp [consume, List.foldl_append]

theorem processBatch_frame (st : Consumer) (b : CellComputeBatch) :
    (mergeReturned st b).sameFrame (processBatch st b) :=
  foldl_checkKey_frame _ _

theorem processBatch_nextBuckets (st : Consumer) (b : CellComputeBatch) :
    (processBatch st b).nextBuckets =
      st.nextBuckets.Merge (CreateBuckets b.CellsToCompute st.server.BucketWidth) :=
  (processBatch_frame st b).1

theorem consume_frame (s : Server) (returned : List CellComputeBatch) :
    (consume s returned).server.BucketWidth = s.BucketWidth ∧
    (consume s returned).server.TimeStep = s.TimeStep ∧
    (consume s returned).server.CellBuckets = s.CellBuckets ∧
    (consume s returned).server.current = s.current ∧
    (consume s returned).server.events = s.events := by
  induction returned using List.reverseRecOn with
  | nil => simp [consume, startConsumer]
  | append_singleton pre b ih =>
    rw [consume_concat]
    obtain ⟨_, a2, a3, a4, a5, a6⟩ := processBatch_frame (consume s pre) b
    simp only [mergeReturned] at a2 a3 a4 a5 a6
    obtain ⟨b2, b3, b4, b5, b6⟩ := ih
    exact ⟨a2.trans b2, a3.trans b3, a4.trans b4, a5.trans b5, a6.trans b6⟩

theorem consume_width (s : Server) (returned : List CellComputeBatch) :
    (consume s returned).server.BucketWidth = s.BucketWidth :=
  (consume_frame s returned).1

theorem cellsOf_concat (pre : List CellComputeBatch) (b : CellComputeBatch) :
    cellsOf (pre ++ [b]) = cellsOf pre ++ b.CellsToCompute := by
  simp [cellsOf]

/-- The bucket of `k` after the batches `returned` are merged: the returned cells
with key `k`, in order of arrival; no bucket when there is none. -/
theorem consume_find (s : Server) (returned : List CellComputeBatch) (k : BucketKey) :
    (consume s returned).nextBuckets.find k =
      if (cellsOf returned).filter (fun c => bucketKeyFor c s.BucketWidth = k) = [] then none
      else some ((cellsOf returned).filter (fun c => bucketKeyFor c s.BucketWidth = k)) := by
  induction returned using List.reverseRecOn with
  | nil => simp [consume, startConsumer, cellsOf, Buckets.find]
  | append_singleton pre b ih =>
    rw [consume_concat, processBatch_nextBuckets, consume_width,
      Buckets.find_Merge _ _ _ (keys_CreateBuckets_nodup _ _), find_CreateBuckets,
      cellsOf_concat, List.filter_append]
    have hc : (consume s pre).nextBuckets.cellsAt k =
        (cellsOf pre).filter (fun c => bucketKeyFor c s.BucketWidth = k) := by
      unfold Buckets.cellsAt
      rw [ih]
      split
      · rename_i h
        simp [h]
      · simp
    by_cases hb : b.CellsToCompute.filter (fun c => bucketKeyFor c s.BucketWidth = k) = []
    · simp only [hb, if_true, List.append_nil]
      exact ih
    · simp only [hb, if_false, hc]
      simp [hb]

theorem consume_cellsAt (s : Server) (returned : List CellComputeBatch) (k : BucketKey) :
    (consume s returned).nextBuckets.cellsAt k =
      (cellsOf returned).filter (fun c => bucketKeyFor c s.BucketWidth = k) := by
  unfold Buckets.cellsAt
  rw [consume_find]
  split
  · rename_i h
    simp [h]
  · simp

theorem consume_keys_nodup (s : Server) (returned : List CellComputeBatch) :
    (consume s returned).nextBuckets.keys.Nodup := by
  induction returned using List.reverseRecOn with
  | nil => simp [consume, startConsumer, Buckets.keys]
  | append_singleton pre b ih =>
    rw [consume_concat, processBatch_nextBuckets]
    exact Buckets.keys_Merge_nodup _ _ ih

theorem processBatch_done (st : Consumer) (b : CellComputeBatch) (k : BucketKey) :
    (processBatch st b).doneNeighbourBuckets k =
      st.doneNeighbourBuckets k +
        (if k ∈ keysToCheck b.BatchKey st.server.BucketWidth then 1 else 0) := by
  unfold processBatch
  rw [foldl_checkKey_done, countP_eq_of_nodup _ (keysToCheck_nodup _ _)]
  rfl

/-- The counter of `k` is the number of batches received whose origin has `k` in
its closed neighbourhood. -/
theorem consume_done (s : Server) (returned : List CellComputeBatch) (k : BucketKey) :
    (consume s returned).doneNeighbourBuckets k =
      returned.countP (fun b => decide (k ∈ keysToCheck b.BatchKey s.BucketWidth)) := by
  induction returned using List.reverseRecOn with
  | nil => simp [consume, startConsumer]
  | append_singleton pre b ih =>
    rw [consume_concat, processBatch_done, ih, consume_width, List.countP_append]
    by_cases h : k ∈ keysToCheck b.BatchKey s.BucketWidth
    · simp [h]
    · simp [h]

/-! ## Counting the arrivals of a closed neighbourhood -/

theorem near_subperm (origins : List BucketKey) (hnd : origins.Nodup) (k : BucketKey) (w : Nat) :
    List.Subperm (origins.filter (fun o => decide (k ∈ keysToCheck o w))) (keysToCheck k w) := by
  refine List.subperm_of_subset (hnd.filter _) ?_
  intro o ho
  rw [List.mem_filter] at ho
  have h := ho.2
  simp only [decide_eq_true_eq] at h
  exact (keysToCheck_symm o k w).2 h

theorem near_count_le (origins : List BucketKey) (hnd : origins.Nodup) (k : BucketKey) (w : Nat) :
    origins.countP (fun o => decide (k ∈ keysToCheck o w)) ≤ 27 := by
  rw [List.countP_eq_length_filter, ← keysToCheck_length k w]
  exact (near_subperm origins hnd k w).length_le

theorem near_all_of_count (origins : List BucketKey) (hnd : origins.Nodup) (k : BucketKey)
    (w : Nat) (h : 27 ≤ origins.countP (fun o => decide (k ∈ keysToCheck o w))) :
    ∀ a ∈ keysToCheck k w, a ∈ origins := by
  rw [List.countP_eq_length_filter, ← keysToCheck_length k w] at h
  have hp := (near_subperm origins hnd k w).perm_of_length_le h
  intro a ha
  have h2 := hp.symm.subset ha
  exact (List.mem_filter.1 h2).1

theorem countP_origins (returned : List CellComputeBatch) (k : BucketKey) (w : Nat) :
    returned.countP (fun b => decide (k ∈ keysToCheck b.BatchKey w)) =
      (returned.map (fun b => b.BatchKey)).countP (fun o => decide (k ∈ keysToCheck o w)) := by
  rw [List.countP_map]
  rfl

/-! ## The calls issued by the lookahead -/

theorem nextBatch_congr (a b : Consumer) (h : a.sameFrame b) (key : BucketKey)
    (bucket : List Cell) : nextBatch b key bucket = nextBatch a key bucket := by
  obtain ⟨h1, h2, h3, _⟩ := h
  simp [nextBatch, h1, h2, h3]

theorem foldl_checkKey_calls (ks : List BucketKey) (hnd : ks.Nodup) (st : Consumer) :
    ∃ extra, (ks.foldl checkKey st).server.next.calls = st.server.next.calls ++ extra ∧
      ∀ d ∈ extra, d.BatchKey ∈ ks ∧ 26 ≤ st.doneNeighbourBuckets d.BatchKey ∧
        ∃ bucket, st.nextBuckets.find d.BatchKey = some bucket ∧ bucket ≠ [] ∧
          d = nextBatch st d.BatchKey bucket := by
  induction ks generalizing st with
  | nil => exact ⟨[], by simp⟩
  | cons a ks ih =>
    rw [List.nodup_cons] at hnd
    obtain ⟨extra, hcalls, hextra⟩ := ih hnd.2 (checkKey st a)
    have hfr := checkKey_frame st a
    have hold : ∀ d ∈ extra, d.BatchKey ∈ a :: ks ∧ 26 ≤ st.doneNeighbourBuckets d.BatchKey ∧
        ∃ bucket, st.nextBuckets.find d.BatchKey = some bucket ∧ bucket ≠ [] ∧
          d = nextBatch st d.BatchKey bucket := by
      intro d hd
      obtain ⟨h1, h2, bucket, h3, h4, h5⟩ := hextra d hd
      have hne : d.BatchKey ≠ a := by
        intro e
        rw [e] at h1
        exact hnd.1 h1
      rw [checkKey_done, Function.update_noteq hne] at h2
      rw [checkKey_nextBuckets] at h3
      rw [nextBatch_congr st _ hfr] at h5
      exact ⟨List.mem_cons_of_mem _ h1, h2, bucket, h3, h4, h5⟩
    rw [List.foldl_cons, hcalls]
    rcases checkKey_cases st a with h | ⟨bucket, h1, h2, h3, h4, h⟩
    · exact ⟨extra, by rw [h], hold⟩
    · refine ⟨nextBatch st a bucket :: extra, ?_, ?_⟩
      · rw [h]
        simp [Server.dispatchNext, Server.MarkRequestInflight]
      · intro d hd
        rcases List.mem_cons.1 hd with e | hd
        · subst e
          refine ⟨by simp [nextBatch], ?_, bucket, ?_, h2, ?_⟩
          · simp only [nextBatch]
            omega
          · simpa [nextBatch] using h1
          · simp [nextBatch]
        · exact hold d hd

theorem processBatch_calls (st : Consumer) (b : CellComputeBatch) :
    (processBatch st b).server.next.calls = st.server.next.calls ++ lookaheadCallsOf st b ∧
      ∀ d ∈ lookaheadCallsOf st b,
        d.BatchKey ∈ keysToCheck b.BatchKey st.server.BucketWidth ∧
        26 ≤ st.doneNeighbourBuckets d.BatchKey ∧
        ∃ bucket, (mergeReturned st b).nextBuckets.find d.BatchKey = some bucket ∧
          bucket ≠ [] ∧ d = nextBatch (mergeReturned st b) d.BatchKey bucket := by
  obtain ⟨extra, h1, h2⟩ :=
    foldl_checkKey_calls (keysToCheck b.BatchKey st.server.BucketWidth)
      (keysToCheck_nodup _ _) (mergeReturned st b)
  have hm : (mergeReturned st b).server = st.server := rfl
  rw [hm] at h1
  have hcalls : (processBatch st b).server.next.calls = st.server.next.calls ++ extra := by
    unfold processBatch
    exact h1
  have he : lookaheadCallsOf st b = extra := by
    unfold lookaheadCallsOf
    rw [hcalls, List.drop_left]
  rw [he]
  exact ⟨hcalls, h2⟩

theorem consume_calls (s : Server) (returned : List CellComputeBatch) :
    (consume s returned).server.next.calls = s.next.calls ++ lookaheadCalls s returned := by
  have h : ∃ extra, (consume s returned).server.next.calls = s.next.calls ++ extra := by
    induction returned using List.reverseRecOn with
    | nil => exact ⟨[], by simp [consume, startConsumer]⟩
    | append_singleton pre b ih =>
      obtain ⟨extra, he⟩ := ih
      refine ⟨extra ++ lookaheadCallsOf (consume s pre) b, ?_⟩
      rw [consume_concat, (processBatch_calls _ b).1, he, List.append_assoc]
  obtain ⟨extra, he⟩ := h
  unfold lookaheadCalls
  rw [he, List.drop_left]

theorem lookaheadCalls_concat (s : Server) (pre : List CellComputeBatch)
    (b : CellComputeBatch) :
    lookaheadCalls s (pre ++ [b]) =
      lookaheadCalls s pre ++ lookaheadCallsOf (consume s pre) b := by
  have h1 := consume_calls s (pre ++ [b])
  rw [consume_concat, (processBatch_calls _ b).1, consume_calls s pre, List.append_assoc] at h1
  exact (List.append_cancel_left h1).symm

/-- Every call of the lookahead is for a key whose closed neighbourhood has been
received in full, provided no origin is received twice. -/
theorem lookahead_neighbourhood_received (s : Server) (returned : List CellComputeBatch)
    (hnd : (returned.map (fun b => b.BatchKey)).Nodup) :
    ∀ d ∈ lookaheadCalls s returned, ∀ a ∈ keysToCheck d.BatchKey s.BucketWidth,
      a ∈ returned.map (fun b => b.BatchKey) := by
  induction returned using List.reverseRecOn with
  | nil =>
    intro d hd
    simp [lookaheadCalls, consume, startConsumer] at hd
  | append_singleton pre b ih =>
    intro d hd a ha
    have hndpre : (pre.map (fun b => b.BatchKey)).Nodup := by
      rw [List.map_append] at hnd
      exact (List.nodup_append.1 hnd).1
    rw [lookaheadCalls_concat] at hd
    rcases List.mem_append.1 hd with hd | hd
    · have := ih hndpre d hd a ha
      rw [List.map_append]
      exact List.mem_append_left _ this
    · obtain ⟨h1, h2, _⟩ := (processBatch_calls _ b).2 d hd
      rw [consume_width] at h1
      rw [consume_done, countP_origins] at h2
      refine near_all_of_count _ hnd d.BatchKey s.BucketWidth ?_ a ha
      rw [List.map_append, List.countP_append]
      simp only [List.map_cons, List.map_nil, List.countP_cons, List.countP_nil, h1,
        decide_True, if_true]
      omega

/-! ## Concatenating buckets -/

theorem foldl_append_eq_flatMap (f : BucketKey → List Cell) (ks : List BucketKey)
    (acc : List Cell) :
    ks.foldl (fun cells k => cells ++ f k) acc = acc ++ ks.flatMap f := by
  induction ks generalizing acc with
  | nil => simp
  | cons k ks ih => simp [List.foldl_cons, ih, List.flatMap_cons]

theorem foldl_find_eq_flatMap (buckets : Buckets) (ks : List BucketKey) (acc : List Cell) :
    ks.foldl (fun surroundingCells otherKey =>
      match buckets.find otherKey with
      | some otherBucket => surroundingCells ++ otherBucket
      | none => surroundingCells) acc = acc ++ ks.flatMap buckets.cellsAt := by
  induction ks generalizing acc with
  | nil => simp
  | cons k ks ih =>
    rw [List.foldl_cons, ih, List.flatMap_cons]
    unfold Buckets.cellsAt
    cases buckets.find k <;> simp

theorem surroundingCellsOf_eq (buckets : Buckets) (key : BucketKey) (w : Nat) :
    surroundingCellsOf buckets key w = (SurroundingKeys key w).flatMap buckets.cellsAt :=
  (foldl_find_eq_flatMap buckets (SurroundingKeys key w) []).trans (by simp)

theorem nextBatch_proximity (st : Consumer) (key : BucketKey) (bucket : List Cell) :
    (nextBatch st key bucket).CellsInProximity =
      (SurroundingKeys key st.server.BucketWidth).flatMap st.nextBuckets.cellsAt := by
  simp [nextBatch, foldl_append_eq_flatMap]

/-- Cells of the concatenated neighbour buckets lie in neighbour buckets only,
when every cell of a bucket has the key of its bucket. -/
theorem proximity_only_neighbours (m : Buckets) (w : Nat) (key : BucketKey)
    (hc : ∀ k bucket, m.find k = some bucket → ∀ c ∈ bucket, bucketKeyFor c w = k) :
    ∀ c ∈ (SurroundingKeys key w).flatMap m.cellsAt, ∀ k bucket,
      m.find k = some bucket → c ∈ bucket → k ∈ SurroundingKeys key w := by
  intro c hcmem k bucket hfind hin
  rw [List.mem_flatMap] at hcmem
  obtain ⟨nk, hnk, hcn⟩ := hcmem
  unfold Buckets.cellsAt at hcn
  cases hf : m.find nk with
  | none => simp [hf] at hcn
  | some nb =>
    rw [hf] at hcn
    simp only [Option.getD_some] at hcn
    have e1 := hc nk nb hf c hcn
    have e2 := hc k bucket hfind c hin
    rw [← e2, e1]
    exact hnk

/-! ## The dispatch loop -/

theorem dispatchOne_frame (s : Server) (entry : BucketKey × List Cell) :
    (dispatchOne s entry).BucketWidth = s.BucketWidth ∧
    (dispatchOne s entry).TimeStep = s.TimeStep ∧
    (dispatchOne s entry).CellBuckets = s.CellBuckets ∧
    (dispatchOne s entry).current.requestsInflight = s.current.requestsInflight ∧
    (dispatchOne s entry).next = s.next ∧
    (dispatchOne s entry).events = s.events := by
  unfold dispatchOne
  split <;> simp [Server.dispatchCurrent]

/-- The dispatch loop over any list of entries, from a server that agrees with `s0`
on what the loop reads. -/
theorem foldl_dispatchOne (s0 : Server) (entries : List (BucketKey × List Cell)) (s : Server)
    (h1 : s.BucketWidth = s0.BucketWidth) (h2 : s.TimeStep = s0.TimeStep)
    (h3 : s.CellBuckets = s0.CellBuckets)
    (h4 : s.current.requestsInflight = s0.current.requestsInflight) :
    (entries.foldl dispatchOne s).current.calls = s.current.calls ++ loopBatches s0 entries ∧
    (entries.foldl dispatchOne s).dispatched = s.dispatched ++ loopBatches s0 entries ∧
    (entries.foldl dispatchOne s).current.wg = s.current.wg + (loopBatches s0 entries).length ∧
    (entries.foldl dispatchOne s).BucketWidth = s0.BucketWidth ∧
    (entries.foldl dispatchOne s).TimeStep = s0.TimeStep ∧
    (entries.foldl dispatchOne s).CellBuckets = s0.CellBuckets ∧
    (entries.foldl dispatchOne s).current.requestsInflight = s0.current.requestsInflight ∧
    (entries.foldl dispatchOne s).next = s.next ∧
    (entries.foldl dispatchOne s).events = s.events := by
  induction entries generalizing s with
  | nil => simp [loopBatches, h1, h2, h3, h4]
  | cons e es ih =>
    have hb : currentBatch s e = currentBatch s0 e := by
      simp [currentBatch, h1, h2, h3]
    by_cases hin : e.1 ∈ s0.current.requestsInflight
    · have hd : dispatchOne s e = s := by
        simp [dispatchOne, Server.RequestInflightFromLastStep, h4, hin]
      have hl : loopBatches s0 (e :: es) = loopBatches s0 es := by
        simp [loopBatches, List.filter_cons, hin]
      rw [List.foldl_cons, hd, hl]
      exact ih s h1 h2 h3 h4
    · have hd : dispatchOne s e = s.dispatchCurrent (currentBatch s0 e) := by
        simp [dispatchOne, Server.RequestInflightFromLastStep, h4, hin, hb]
      have hl : loopBatches s0 (e :: es) = currentBatch s0 e :: loopBatches s0 es := by
        simp [loopBatches, List.filter_cons, hin]
      rw [List.foldl_cons, hd, hl]
      obtain ⟨g1, g2, g3, g4, g5, g6, g7, g8, g9⟩ :=
        ih (s.dispatchCurrent (currentBatch s0 e)) h1 h2 h3 h4
      refine ⟨?_, ?_, ?_, g4, g5, g6, g7, g8, g9⟩
      · rw [g1]
        simp [Server.dispatchCurrent]
      · rw [g2]
        simp [Server.dispatchCurrent]
      · rw [g3]
        simp only [Server.dispatchCurrent, List.length_cons]
        push_cast
        ring

/-- The calls that the dispatch loop of `step` issues. -/
theorem dispatchLoop_spec (s : Server) :
    (dispatchLoop s).current.calls = s.current.calls ++ loopBatches s s.CellBuckets ∧
    (dispatchLoop s).dispatched = s.dispatched ++ loopBatches s s.CellBuckets ∧
    (dispatchLoop s).current.wg = s.current.wg + (loopBatches s s.CellBuckets).length ∧
    (dispatchLoop s).BucketWidth = s.BucketWidth ∧ (dispatchLoop s).TimeStep = s.TimeStep ∧
    (dispatchLoop s).CellBuckets = s.CellBuckets ∧
    (dispatchLoop s).current.requestsInflight = s.current.requestsInflight ∧
    (dispatchLoop s).next = s.next ∧ (dispatchLoop s).events = s.events :=
  foldl_dispatchOne s s.CellBuckets s rfl rfl rfl rfl

theorem Buckets.find_of_mem (b : Buckets) (h : b.keys.Nodup) (e : BucketKey × List Cell)
    (he : e ∈ b) : b.find e.1 = some e.2 := by
  induction b with
  | nil => simp at he
  | cons p rest ih =>
    obtain ⟨k1, v1⟩ := p
    simp only [Buckets.keys, List.map_cons, List.nodup_cons] at h
    rcases List.mem_cons.1 he with e1 | e1
    · subst e1
      simp [Buckets.find]
    · have hne : k1 ≠ e.1 := by
        intro hk
        apply h.1
        rw [hk]
        exact List.mem_map_of_mem _ e1
      simp only [Buckets.find, hne, if_false]
      exact ih h.2 e1

/-! ## The in-flight sets while the consumer runs on its own slots -/

theorem ConsumerInv_checkKey (st : Consumer) (key : BucketKey) (t : Nat)
    (h : st.server.ConsumerInv t) : (checkKey st key).server.ConsumerInv t := by
  rcases checkKey_cases st key with e | ⟨bucket, _, _, _, hnot, e⟩
  · rw [e]
    exact h
  · rw [e]
    obtain ⟨h1, h2, h3, h4⟩ := h
    refine ⟨h1, ?_, ?_, ?_⟩
    · simp only [Server.dispatchedKeys, Server.MarkRequestInflight, Server.dispatchNext,
        List.map_append, List.map_cons, List.map_nil, nextBatch]
      rw [List.nodup_append]
      refine ⟨h2, List.nodup_singleton _, ?_⟩
      intro p hp hq
      simp only [List.mem_singleton] at hq
      subst hq
      rw [List.mem_map] at hp
      obtain ⟨d, hd, hpair⟩ := hp
      simp only [Prod.mk.injEq] at hpair
      have := h4 d hd (by rw [hpair.1, h1])
      rw [hpair.2] at this
      exact hnot this
    · intro d hd
      simp only [Server.MarkRequestInflight, Server.dispatchNext, List.mem_append,
        List.mem_singleton] at hd
      rcases hd with hd | hd
      · exact h3 d hd
      · subst hd
        simp [nextBatch, h1]
    · intro d hd ht
      simp only [Server.MarkRequestInflight, Server.dispatchNext, List.mem_append,
        List.mem_singleton] at hd ⊢
      rcases hd with hd | hd
      · exact Or.inl (h4 d hd ht)
      · subst hd
        exact Or.inr (by simp [nextBatch])

theorem ConsumerInv_foldl (ks : List BucketKey) (st : Consumer) (t : Nat)
    (h : st.server.ConsumerInv t) : (ks.foldl checkKey st).server.ConsumerInv t := by
  induction ks generalizing st with
  | nil => exact h
  | cons k ks ih => exact ih _ (ConsumerInv_checkKey st k t h)

theorem ConsumerInv_consume (s : Server) (returned : List CellComputeBatch) (t : Nat)
    (h : s.ConsumerInv t) : (consume s returned).server.ConsumerInv t := by
  induction returned using List.reverseRecOn with
  | nil => exact h
  | append_singleton pre b ih =>
    rw [consume_concat]
    exact ConsumerInv_foldl _ _ t ih

theorem loopBatches_keys (s : Server) (entries : List (BucketKey × List Cell)) :
    (loopBatches s entries).map (fun d => (d.TimeStep, d.BatchKey)) =
      ((entries.filter (fun e => decide (e.1 ∉ s.current.requestsInflight))).map Prod.fst).map
        (fun k => (s.TimeStep, k)) := by
  simp [loopBatches, currentBatch, Function.comp_def]

theorem Inv_dispatchLoop (s : Server) (h : s.Inv) : (dispatchLoop s).ConsumerInv s.TimeStep := by
  obtain ⟨h1, h2, h3, h4⟩ := h
  obtain ⟨_, g2, _, _, g5, _, _, _, _⟩ := dispatchLoop_spec s
  have hmem : ∀ d ∈ loopBatches s s.CellBuckets,
      d.TimeStep = s.TimeStep ∧ d.BatchKey ∉ s.current.requestsInflight := by
    intro d hd
    simp only [loopBatches, List.mem_map, List.mem_filter, decide_eq_true_eq] at hd
    obtain ⟨e, ⟨_, he⟩, rfl⟩ := hd
    exact ⟨rfl, he⟩
  refine ⟨g5, ?_, ?_, ?_⟩
  · simp only [Server.dispatchedKeys, g2, List.map_append]
    rw [List.nodup_append]
    refine ⟨h2, ?_, ?_⟩
    · rw [loopBatches_keys]
      refine List.Nodup.map ?_ ?_
      · intro a b hab
        simpa using hab
      · exact (List.Nodup.sublist (List.Sublist.map _ (List.filter_sublist _)) h1)
    · intro p hp hq
      rw [List.mem_map] at hp hq
      obtain ⟨d, hd, rfl⟩ := hp
      obtain ⟨d2, hd2, hpair⟩ := hq
      simp only [Prod.mk.injEq] at hpair
      obtain ⟨ht, hn⟩ := hmem d2 hd2
      have := h4 d hd (by rw [← hpair.1, ht])
      rw [← hpair.2] at this
      exact hn this
  · intro d hd
    rw [g2, List.mem_append] at hd
    rcases hd with hd | hd
    · exact Nat.le_succ_of_le (h3 d hd)
    · rw [(hmem d hd).1]
      exact Nat.le_succ _
  · intro d hd ht
    rw [g2, List.mem_append] at hd
    rcases hd with hd | hd
    · have := h3 d hd
      omega
    · have := (hmem d hd).1
      omega

/-! ## The consumer as a sequence of statements -/

theorem Consumer.run_append (st : Consumer) (a b : List ConsumerAction) :
    st.run (a ++ b) = (st.run a).run b := by
  simp [Consumer.run, List.foldl_append]

theorem Consumer.run_batchActions (st : Consumer) (b : CellComputeBatch) :
    st.run (batchActions st.server.BucketWidth b) = processBatch st b := by
  simp only [Consumer.run, batchActions, List.foldl_cons, Consumer.act, List.foldl_map,
    processBatch]

theorem processBatch_width (st : Consumer) (b : CellComputeBatch) :
    (processBatch st b).server.BucketWidth = st.server.BucketWidth :=
  (processBatch_frame st b).2.1

theorem Consumer.run_consumerActions (returned : List CellComputeBatch) (st : Consumer) :
    st.run (consumerActions st.server.BucketWidth returned) = returned.foldl processBatch st := by
  induction returned generalizing st with
  | nil => rfl
  | cons b bs ih =>
    have h := ih (processBatch st b)
    rw [processBatch_width] at h
    simp only [consumerActions, List.flatMap_cons, List.foldl_cons] at h ⊢
    rw [Consumer.run_append, Consumer.run_batchActions]
    exact h

theorem Consumer.act_frame (st : Consumer) (a : ConsumerAction) :
    (st.act a).server.BucketWidth = st.server.BucketWidth ∧
    (st.act a).server.TimeStep = st.server.TimeStep ∧
    (st.act a).server.CellBuckets = st.server.CellBuckets ∧
    (st.act a).server.current = st.server.current ∧
    (st.act a).server.events = st.server.events := by
  cases a with
  | merge b => exact ⟨rfl, rfl, rfl, rfl, rfl⟩
  | check key =>
    obtain ⟨_, h2, h3, h4, h5, h6⟩ := checkKey_frame st key
    exact ⟨h2, h3, h4, h5, h6⟩

theorem Consumer.run_frame (actions : List ConsumerAction) (st : Consumer) :
    (st.run actions).server.BucketWidth = st.server.BucketWidth ∧
    (st.run actions).server.TimeStep = st.server.TimeStep ∧
    (st.run actions).server.CellBuckets = st.server.CellBuckets ∧
    (st.run actions).server.current = st.server.current ∧
    (st.run actions).server.events = st.server.events := by
  induction actions generalizing st with
  | nil => exact ⟨rfl, rfl, rfl, rfl, rfl⟩
  | cons a as ih =>
    obtain ⟨a1, a2, a3, a4, a5⟩ := Consumer.act_frame st a
    obtain ⟨b1, b2, b3, b4, b5⟩ := ih (st.act a)
    exact ⟨b1.trans a1, b2.trans a2, b3.trans a3, b4.trans a4, b5.trans a5⟩

/-- The buckets that the consumer accumulates do not depend on the slots it runs
on: they are the same from two states that agree on `nextBuckets` and on the
bucket width. -/
theorem Consumer.run_nextBuckets_congr (actions : List ConsumerAction) (st st2 : Consumer)
    (h1 : st.nextBuckets = st2.nextBuckets)
    (h2 : st.server.BucketWidth = st2.server.BucketWidth) :
    (st.run actions).nextBuckets = (st2.run actions).nextBuckets := by
  induction actions generalizing st st2 with
  | nil => exact h1
  | cons a as ih =>
    have hw : (st.act a).server.BucketWidth = (st2.act a).server.BucketWidth := by
      rw [(Consumer.act_frame st a).1, (Consumer.act_frame st2 a).1, h2]
    have hb : (st.act a).nextBuckets = (st2.act a).nextBuckets := by
      cases a with
      | merge b => simp [Consumer.act, mergeReturned, h1, h2]
      | check key => simp [Consumer.act, checkKey_nextBuckets, h1]
    exact ih _ _ hb hw

/-! ## The fields of the server after a step -/

theorem consumeWithCycle_frame (s : Server) (actions : List ConsumerAction) (cycleAt : Nat) :
    (consumeWithCycle s actions cycleAt).server.BucketWidth = s.BucketWidth ∧
    (consumeWithCycle s actions cycleAt).server.TimeStep = s.TimeStep ∧
    (consumeWithCycle s actions cycleAt).server.events = s.events ++ [Event.cycle] ∧
    (consumeWithCycle s actions cycleAt).nextBuckets =
      ((startConsumer s).run actions).nextBuckets := by
  obtain ⟨a1, a2, _, _, a5⟩ := Consumer.run_frame (actions.take cycleAt) (startConsumer s)
  obtain ⟨b1, b2, _, _, b5⟩ := Consumer.run_frame (actions.drop cycleAt)
    ({ (startConsumer s).run (actions.take cycleAt) with
       server := ((startConsumer s).run (actions.take cycleAt)).server.Cycle } : Consumer)
  refine ⟨b1.trans a1, b2.trans a2, ?_, ?_⟩
  · refine b5.trans ?_
    show ((startConsumer s).run (actions.take cycleAt)).server.events ++ [Event.cycle] = _
    rw [a5]
    rfl
  · have h := Consumer.run_nextBuckets_congr (actions.drop cycleAt)
      ({ (startConsumer s).run (actions.take cycleAt) with
         server := ((startConsumer s).run (actions.take cycleAt)).server.Cycle } : Consumer)
      ((startConsumer s).run (actions.take cycleAt)) rfl rfl
    refine h.trans ?_
    rw [← Consumer.run_append, List.take_append_drop]

theorem run_consumerActions_start (s : Server) (returned : List CellComputeBatch) :
    (startConsumer s).run (consumerActions s.BucketWidth returned) = consume s returned :=
  Consumer.run_consumerActions returned (startConsumer s)

/-- When the consumer has executed all its statements before `Cycle` runs, the
step is the consumer loop followed by `Cycle`. -/
theorem consumeWithCycle_drained (s : Server) (actions : List ConsumerAction) (cycleAt : Nat)
    (h : actions.length ≤ cycleAt) :
    consumeWithCycle s actions cycleAt =
      { (startConsumer s).run actions with
        server := ((startConsumer s).run actions).server.Cycle } := by
  unfold consumeWithCycle
  simp only [List.take_of_length_le h, List.drop_of_length_le h]
  rfl

/-- Wherever `Cycle` falls, a step increments the time step, installs the buckets
accumulated from all the batches received, and runs `Cycle` and then the
broadcast. -/
theorem stepWith_result (worker : Worker) (arrivals : List CellComputeBatch) (cycleAt : Nat)
    (s : Server) :
    (stepWith worker arrivals cycleAt s).TimeStep = s.TimeStep + 1 ∧
    (stepWith worker arrivals cycleAt s).BucketWidth = s.BucketWidth ∧
    (stepWith worker arrivals cycleAt s).CellBuckets =
      (consume s (arrivals.map (callWorker worker))).nextBuckets ∧
    (stepWith worker arrivals cycleAt s).events =
      s.events ++ [Event.cycle,
        Event.broadcast (consume s (arrivals.map (callWorker worker))).nextBuckets.AllCells] := by
  obtain ⟨_, _, _, g4, g5, _, _, _, g9⟩ := dispatchLoop_spec s
  have w2 : ((dispatchLoop s).doneCurrent arrivals.length).BucketWidth = s.BucketWidth := g4
  obtain ⟨c1, c2, c3, c4⟩ := consumeWithCycle_frame ((dispatchLoop s).doneCurrent arrivals.length)
    (consumerActions ((dispatchLoop s).doneCurrent arrivals.length).BucketWidth
      (arrivals.map (callWorker worker))) cycleAt
  have hnb : (consumeWithCycle ((dispatchLoop s).doneCurrent arrivals.length)
      (consumerActions ((dispatchLoop s).doneCurrent arrivals.length).BucketWidth
        (arrivals.map (callWorker worker))) cycleAt).nextBuckets =
      (consume s (arrivals.map (callWorker worker))).nextBuckets := by
    rw [c4, ← run_consumerActions_start s, w2]
    exact Consumer.run_nextBuckets_congr _ _ _ rfl w2
  refine ⟨?_, ?_, ?_, ?_⟩
  · show (consumeWithCycle _ _ cycleAt).server.TimeStep + 1 = _
    rw [c2]
    show (dispatchLoop s).TimeStep + 1 = _
    rw [g5]
  · show (consumeWithCycle _ _ cycleAt).server.BucketWidth = _
    rw [c1]
    exact g4
  · exact hnb
  · show (consumeWithCycle _ _ cycleAt).server.events ++
      [Event.broadcast (consumeWithCycle _ _ cycleAt).nextBuckets.AllCells] = _
    rw [c3, hnb]
    show ((dispatchLoop s).events ++ [Event.cycle]) ++ _ = _
    rw [g9]
    simp

/-- When the consumer is idle as `Cycle` runs, the slots and the record of calls
after the step are those the consumer loop leaves, the next slot promoted. -/
theorem stepWith_drained (worker : Worker) (arrivals : List CellComputeBatch) (cycleAt : Nat)
    (s : Server)
    (h : (consumerActions s.BucketWidth (arrivals.map (callWorker worker))).length ≤ cycleAt) :
    (stepWith worker arrivals cycleAt s).current =
      (consume ((dispatchLoop s).doneCurrent arrivals.length)
        (arrivals.map (callWorker worker))).server.next ∧
    (stepWith worker arrivals cycleAt s).next = newStepState ∧
    (stepWith worker arrivals cycleAt s).dispatched =
      (consume ((dispatchLoop s).doneCurrent arrivals.length)
        (arrivals.map (callWorker worker))).server.dispatched := by
  have w2 : ((dispatchLoop s).doneCurrent arrivals.length).BucketWidth = s.BucketWidth :=
    (dispatchLoop_spec s).2.2.2.1
  have h2 : (consumerActions ((dispatchLoop s).doneCurrent arrivals.length).BucketWidth
      (arrivals.map (callWorker worker))).length ≤ cycleAt := by
    rw [w2]
    exact h
  have hd := consumeWithCycle_drained ((dispatchLoop s).doneCurrent arrivals.length) _ cycleAt h2
  rw [run_consumerActions_start] at hd
  refine ⟨?_, ?_, ?_⟩
  · show (consumeWithCycle _ _ cycleAt).server.current = _
    rw [hd]
    rfl
  · show (consumeWithCycle _ _ cycleAt).server.next = _
    rw [hd]
    rfl
  · show (consumeWithCycle _ _ cycleAt).server.dispatched = _
    rw [hd]
    rfl

/-- When the consumer is idle as `Cycle` runs, a step keeps the in-flight
discipline: no two calls for the same key and time step. -/
theorem Inv_stepWith_drained (worker : Worker) (arrivals : List CellComputeBatch)
    (cycleAt : Nat) (s : Server)
    (hn : (consumerActions s.BucketWidth (arrivals.map (callWorker worker))).length ≤ cycleAt)
    (h : s.Inv) : (stepWith worker arrivals cycleAt s).Inv := by
  obtain ⟨f1, _, f3, _⟩ := stepWith_result worker arrivals cycleAt s
  obtain ⟨f4, _, f6⟩ := stepWith_drained worker arrivals cycleAt s hn
  have hl := Inv_dispatchLoop s h
  have hc := ConsumerInv_consume ((dispatchLoop s).doneCurrent arrivals.length)
      (arrivals.map (callWorker worker)) s.TimeStep hl
  obtain ⟨_, c2, c3, c4⟩ := hc
  refine ⟨?_, ?_, ?_, ?_⟩
  · rw [f3]
    exact consume_keys_nodup _ _
  · unfold Server.dispatchedKeys
    rw [f6]
    exact c2
  · intro d hd
    rw [f6] at hd
    rw [f1]
    exact c3 d hd
  · intro d hd ht
    rw [f6] at hd
    rw [f1] at ht
    rw [f4]
    exact c4 d hd ht

/-! ## The state inside the processing of one batch -/

theorem midState_frame (s : Server) (pre : List CellComputeBatch) (b : CellComputeBatch)
    (ks : List BucketKey) :
    (midState s pre b ks).nextBuckets = (mergeReturned (consume s pre) b).nextBuckets ∧
    (midState s pre b ks).server.BucketWidth = s.BucketWidth ∧
    (midState s pre b ks).server.TimeStep = s.TimeStep := by
  obtain ⟨a1, a2, a3, _⟩ := foldl_checkKey_frame ks (mergeReturned (consume s pre) b)
  obtain ⟨b1, b2, _⟩ := consume_frame s pre
  exact ⟨a1, a2.trans b1, a3.trans b2⟩

theorem midState_done (s : Server) (pre : List CellComputeBatch) (b : CellComputeBatch)
    (ks rest : List BucketKey) (key : BucketKey)
    (hks : keysToCheck b.BatchKey s.BucketWidth = ks ++ key :: rest) :
    (midState s pre b ks).doneNeighbourBuckets key =
      pre.countP (fun r => decide (key ∈ keysToCheck r.BatchKey s.BucketWidth)) := by
  have hnd := keysToCheck_nodup b.BatchKey s.BucketWidth
  rw [hks] at hnd
  have hnot : key ∉ ks := by
    intro hin
    have := (List.nodup_append.1 hnd).2.2 hin
    exact this (List.mem_cons_self _ _)
  unfold midState
  rw [foldl_checkKey_done, countP_eq_of_nodup _ (List.nodup_append.1 hnd).1, if_neg hnot]
  simp only [mergeReturned, Nat.add_zero]
  exact consume_done s pre key

theorem midState_done_le (s : Server) (pre : List CellComputeBatch) (b : CellComputeBatch)
    (hnd : ((pre ++ [b]).map (fun r => r.BatchKey)).Nodup)
    (ks rest : List BucketKey) (key : BucketKey)
    (hks : keysToCheck b.BatchKey s.BucketWidth = ks ++ key :: rest) :
    (midState s pre b ks).doneNeighbourBuckets key + 1 ≤ 27 := by
  rw [midState_done s pre b ks rest key hks]
  have hmem : key ∈ keysToCheck b.BatchKey s.BucketWidth := by
    rw [hks]
    simp
  have h := near_count_le _ hnd key s.BucketWidth
  rw [← countP_origins, List.countP_append] at h
  simp only [List.countP_cons, List.countP_nil, hmem, decide_True, if_true] at h
  omega

/-! ## C1: lookahead safety -/

theorem lookaheadCalls_timeStep (s : Server) (returned : List CellComputeBatch) :
    ∀ d ∈ lookaheadCalls s returned, d.TimeStep = s.TimeStep + 1 := by
  induction returned using List.reverseRecOn with
  | nil =>
    intro d hd
    simp [lookaheadCalls, consume, startConsumer] at hd
  | append_singleton pre b ih =>
    intro d hd
    rw [lookaheadCalls_concat] at hd
    rcases List.mem_append.1 hd with hd | hd
    · exact ih d hd
    · obtain ⟨_, _, bucket, _, _, he⟩ := (processBatch_calls _ b).2 d hd
      rw [he]
      simp only [nextBatch, mergeReturned]
      rw [(consume_frame s pre).2.1]

/-- C1 (lookahead safety). Let `returned` be the batches received so far from the
result channel of the current step, no origin key occurring twice. Every call that
the lookahead of `processReturnedBatches` has issued by then is for step `t+1`,
and each of the 27 keys of the closed neighbourhood of its key (the key and its 26
surrounding keys) is the origin of a batch already received. -/
theorem lookahead_safety (s : Server) (returned : List CellComputeBatch)
    (hnd : (returned.map (fun b => b.BatchKey)).Nodup) :
    ∀ d ∈ lookaheadCalls s returned,
      d.TimeStep = s.TimeStep + 1 ∧
      ∀ k, (k = d.BatchKey ∨ k ∈ SurroundingKeys d.BatchKey s.BucketWidth) →
        ∃ r ∈ returned, r.BatchKey = k := by
  intro d hd
  refine ⟨lookaheadCalls_timeStep s returned d hd, ?_⟩
  intro k hk
  have hmem : k ∈ keysToCheck d.BatchKey s.BucketWidth := by
    rw [mem_keysToCheck]
    exact hk.symm
  have := lookahead_neighbourhood_received s returned hnd d hd k hmem
  rw [List.mem_map] at this
  exact this

theorem blockReturned_nodup : (blockReturned.map (fun b => b.BatchKey)).Nodup := by
  have h : blockReturned.map (fun b => b.BatchKey) = keysToCheck (0, 0, 0) 10 := by
    simp [blockReturned, blockKeys, Function.comp_def]
  rw [h]
  exact keysToCheck_nodup _ _

theorem blockReturned_lookahead :
    (lookaheadCalls blockServer blockReturned).map (fun d => (d.BatchKey, d.CellsToCompute)) =
      [((0, 0, 0), [⟨1, 1, 1, 0⟩])] := by
  decide!

/-- Witness of C1: the 27 buckets around `(0, 0, 0)` have all returned, the
lookahead has issued a call, and the property holds of it. -/
theorem lookahead_safety_witness :
    (blockReturned.map (fun b => b.BatchKey)).Nodup ∧
    lookaheadCalls blockServer blockReturned ≠ [] ∧
    ∀ d ∈ lookaheadCalls blockServer blockReturned,
      d.TimeStep = blockServer.TimeStep + 1 ∧
      ∀ k, (k = d.BatchKey ∨ k ∈ SurroundingKeys d.BatchKey blockServer.BucketWidth) →
        ∃ r ∈ blockReturned, r.BatchKey = k :=
  ⟨blockReturned_nodup,
   fun h => by
    have h2 := blockReturned_lookahead
    rw [h] at h2
    simp at h2,
   lookahead_safety blockServer blockReturned blockReturned_nodup⟩

/-! ## C2: inflight uniqueness -/

/-- When the consumer is idle as `Cycle` runs, the calls issued up to and including
the dispatch loop of the following step are for distinct keys and time steps: the
in-flight sets do what they are there for. -/
theorem inflight_unique_when_drained (worker : Worker) (arrivals : List CellComputeBatch)
    (cycleAt : Nat) (s : Server)
    (hn : (consumerActions s.BucketWidth (arrivals.map (callWorker worker))).length ≤ cycleAt)
    (h : s.Inv) :
    ((dispatchLoop (stepWith worker arrivals cycleAt s)).dispatched.map
      (fun d => (d.TimeStep, d.BatchKey))).Nodup :=
  (Inv_dispatchLoop _ (Inv_stepWith_drained worker arrivals cycleAt s hn h)).2.1

theorem blockServer_actions :
    (consumerActions blockServer.BucketWidth
      ((dispatchLoop blockServer).current.calls.map (callWorker echoWorker))).length = 756 := by
  decide!

/-- C2 (inflight uniqueness), evaluated where the code breaks it. The server holds
the 27 buckets around `(0, 0, 0)`, the worker echoes, the results arrive in the
order of the calls, the one of `(0, 0, 0)` last. The consumer loop has 756
statements. `Wait` returns once the last result is sent; `Cycle` runs when the
consumer has executed 728 statements, the 26 first batches, and has yet to
process the last one. Its lookahead then issues the call for `(0, 0, 0)` and time
step 1 and marks the key in flight on the slot that `Cycle` has just allocated,
not on the one promoted to current; the dispatch loop of the following step finds
the key not in flight and issues a call for `(0, 0, 0)` and time step 1 again. -/
theorem inflight_double_dispatch :
    (stepWith echoWorker (dispatchLoop blockServer).current.calls 728 blockServer).TimeStep = 1 ∧
    (stepWith echoWorker (dispatchLoop blockServer).current.calls 728
      blockServer).current.requestsInflight = [] ∧
    (stepWith echoWorker (dispatchLoop blockServer).current.calls 728
      blockServer).next.requestsInflight = [(0, 0, 0)] ∧
    ((dispatchLoop (stepWith echoWorker (dispatchLoop blockServer).current.calls 728
      blockServer)).dispatched.filter
        (fun d => decide (d.TimeStep = 1 ∧ d.BatchKey = (0, 0, 0)))).map
          (fun d => (d.TimeStep, d.BatchKey)) = [(1, (0, 0, 0)), (1, (0, 0, 0))] := by
  decide!

/-- The same step when `Cycle` finds the consumer idle: no key is dispatched twice. -/
theorem inflight_single_dispatch :
    ((dispatchLoop (stepWith echoWorker (dispatchLoop blockServer).current.calls 756
      blockServer)).dispatched.map (fun d => (d.TimeStep, d.BatchKey))).Nodup :=
  inflight_unique_when_drained echoWorker (dispatchLoop blockServer).current.calls 756
    blockServer (le_of_eq blockServer_actions)
    ⟨keys_CreateBuckets_nodup _ _, List.nodup_nil, by simp [blockServer, NewSimulationState],
      by simp [blockServer, NewSimulationState]⟩

/-! ## C4: the lookahead dispatch predicate -/

theorem dupReturned_check :
    keysToCheck dupReturned.BatchKey blockServer.BucketWidth =
      (keysToCheck (1, 0, 0) 10).take 4 ++ (0, 0, 0) :: (keysToCheck (1, 0, 0) 10).drop 5 ∧
    (midState blockServer hollowReturned dupReturned
      ((keysToCheck (1, 0, 0) 10).take 4)).nextBuckets.find (0, 0, 0) = some [⟨2, 2, 2, 7⟩] ∧
    (midState blockServer hollowReturned dupReturned
      ((keysToCheck (1, 0, 0) 10).take 4)).server.next = newStepState ∧
    (checkKey (midState blockServer hollowReturned dupReturned
      ((keysToCheck (1, 0, 0) 10).take 4)) (0, 0, 0)).doneNeighbourBuckets (0, 0, 0) = 28 ∧
    (checkKey (midState blockServer hollowReturned dupReturned
      ((keysToCheck (1, 0, 0) 10).take 4)) (0, 0, 0)).server.next.calls.map
        (fun d => (d.BatchKey, d.TimeStep, d.CellsToCompute)) =
      [((0, 0, 0), 1, [⟨2, 2, 2, 7⟩])] ∧
    (checkKey (midState blockServer hollowReturned dupReturned
      ((keysToCheck (1, 0, 0) 10).take 4)) (0, 0, 0)).server.next.requestsInflight =
      [(0, 0, 0)] := by
  decide!

/-- Counterexample to C4: the 27 buckets around `(0, 0, 0)` have returned, the one
of `(0, 0, 0)` without a cell, so that the counter of `(0, 0, 0)` is 27 and
`nextBuckets` has no bucket for it; then a second batch of origin `(1, 0, 0)`
arrives with a cell for `(0, 0, 0)`. At the check of `(0, 0, 0)`, the fifth key
checked for that batch, the counter becomes 28 and the call for `(0, 0, 0)` and
step 1 is issued and the key marked in flight, while the predicate of the
specification, with its `== 27`, does not hold. -/
theorem lookahead_fires_at_28 :
    keysToCheck dupReturned.BatchKey blockServer.BucketWidth =
      (keysToCheck (1, 0, 0) 10).take 4 ++ (0, 0, 0) :: (keysToCheck (1, 0, 0) 10).drop 5 ∧
    (checkKey (midState blockServer hollowReturned dupReturned
      ((keysToCheck (1, 0, 0) 10).take 4)) (0, 0, 0)).doneNeighbourBuckets (0, 0, 0) = 28 ∧
    (midState blockServer hollowReturned dupReturned
      ((keysToCheck (1, 0, 0) 10).take 4)).server.next.calls = [] ∧
    (checkKey (midState blockServer hollowReturned dupReturned
      ((keysToCheck (1, 0, 0) 10).take 4)) (0, 0, 0)).server.next.calls.map
        (fun d => (d.BatchKey, d.TimeStep, d.CellsToCompute)) =
      [((0, 0, 0), 1, [⟨2, 2, 2, 7⟩])] ∧
    (checkKey (midState blockServer hollowReturned dupReturned
      ((keysToCheck (1, 0, 0) 10).take 4)) (0, 0, 0)).server.next.requestsInflight =
      [(0, 0, 0)] ∧
    ¬ specPredicate
        (midState blockServer hollowReturned dupReturned ((keysToCheck (1, 0, 0) 10).take 4))
        (0, 0, 0)
        ((checkKey (midState blockServer hollowReturned dupReturned
          ((keysToCheck (1, 0, 0) 10).take 4)) (0, 0, 0)).doneNeighbourBuckets (0, 0, 0)) := by
  obtain ⟨h1, _, h3, h4, h5, h6⟩ := dupReturned_check
  refine ⟨h1, h4, ?_, h5, h6, ?_⟩
  · rw [h3]
    rfl
  · rintro ⟨_, hc, _⟩
    rw [h4] at hc
    exact absurd hc (by decide)

/-- C4 as amended (lookahead dispatch predicate). At the check of any key, in any
state of the consumer, the counter of the key is incremented; the check then
issues a call for the key and step `t+1`, adds one to the wait counter of the next
slot and marks the key in flight there if `nextBuckets[key]` exists and is not
empty, the counter is now at least 27 and the key was not in flight on the next
slot; otherwise it leaves the server as it was. -/
theorem lookahead_predicate (st : Consumer) (key : BucketKey) :
    (checkKey st key).doneNeighbourBuckets key = st.doneNeighbourBuckets key + 1 ∧
    (lookaheadPredicate st key ((checkKey st key).doneNeighbourBuckets key) →
      ∃ batch, batch.BatchKey = key ∧ batch.TimeStep = st.server.TimeStep + 1 ∧
        st.nextBuckets.find key = some batch.CellsToCompute ∧
        (checkKey st key).server.next.calls = st.server.next.calls ++ [batch] ∧
        (checkKey st key).server.dispatched = st.server.dispatched ++ [batch] ∧
        (checkKey st key).server.next.wg = st.server.next.wg + 1 ∧
        (checkKey st key).server.next.requestsInflight =
          st.server.next.requestsInflight ++ [key]) ∧
    (¬ lookaheadPredicate st key ((checkKey st key).doneNeighbourBuckets key) →
      (checkKey st key).server = st.server) := by
  have hdone : (checkKey st key).doneNeighbourBuckets key =
      st.doneNeighbourBuckets key + 1 := by
    rw [checkKey_done, Function.update_same]
  refine ⟨hdone, ?_, ?_⟩
  · rintro ⟨⟨bucket, hf, hne⟩, hc, hin⟩
    rw [hdone] at hc
    have hfire := checkKey_fire st key bucket hf hne hc hin
    refine ⟨nextBatch st key bucket, rfl, rfl, hf, ?_, ?_, ?_, ?_⟩
    · rw [hfire]
      rfl
    · rw [hfire]
      rfl
    · rw [hfire]
      rfl
    · rw [hfire]
      rfl
  · intro hn
    apply checkKey_nofire
    rintro ⟨bucket, hf, hne, hc, hin⟩
    apply hn
    refine ⟨⟨bucket, hf, hne⟩, ?_, hin⟩
    rw [hdone]
    exact hc

theorem centre_check :
    (midState blockServer (blockReturned.take 26) loneReturned
      (SurroundingKeys (0, 0, 0) 10)).nextBuckets.find (0, 0, 0) = some [⟨1, 1, 1, 0⟩] ∧
    (checkKey (midState blockServer (blockReturned.take 26) loneReturned
      (SurroundingKeys (0, 0, 0) 10)) (0, 0, 0)).doneNeighbourBuckets (0, 0, 0) = 27 ∧
    (midState blockServer (blockReturned.take 26) loneReturned
      (SurroundingKeys (0, 0, 0) 10)).server.next = newStepState ∧
    blockReturned = blockReturned.take 26 ++ [loneReturned] := by
  decide!

/-- Witness of C4 as amended: the 27 buckets around `(0, 0, 0)` return, the one of
`(0, 0, 0)` last; at the check of its own key, the last of the 27 checks of that
batch, the counter reaches 27, the predicate holds and the call is issued. -/
theorem lookahead_predicate_witness :
    blockReturned = blockReturned.take 26 ++ [loneReturned] ∧
    lookaheadPredicate
      (midState blockServer (blockReturned.take 26) loneReturned (SurroundingKeys (0, 0, 0) 10))
      (0, 0, 0) 27 ∧
    (checkKey (midState blockServer (blockReturned.take 26) loneReturned
      (SurroundingKeys (0, 0, 0) 10)) (0, 0, 0)).doneNeighbourBuckets (0, 0, 0) = 27 ∧
    ∃ batch, batch.BatchKey = (0, 0, 0) ∧
      batch.TimeStep = (midState blockServer (blockReturned.take 26) loneReturned
        (SurroundingKeys (0, 0, 0) 10)).server.TimeStep + 1 ∧
      (midState blockServer (blockReturned.take 26) loneReturned
        (SurroundingKeys (0, 0, 0) 10)).nextBuckets.find (0, 0, 0) = some batch.CellsToCompute ∧
      (checkKey (midState blockServer (blockReturned.take 26) loneReturned
        (SurroundingKeys (0, 0, 0) 10)) (0, 0, 0)).server.next.calls =
        (midState blockServer (blockReturned.take 26) loneReturned
          (SurroundingKeys (0, 0, 0) 10)).server.next.calls ++ [batch] ∧
      (checkKey (midState blockServer (blockReturned.take 26) loneReturned
        (SurroundingKeys (0, 0, 0) 10)) (0, 0, 0)).server.dispatched =
        (midState blockServer (blockReturned.take 26) loneReturned
          (SurroundingKeys (0, 0, 0) 10)).server.dispatched ++ [batch] ∧
      (checkKey (midState blockServer (blockReturned.take 26) loneReturned
        (SurroundingKeys (0, 0, 0) 10)) (0, 0, 0)).server.next.wg =
        (midState blockServer (blockReturned.take 26) loneReturned
          (SurroundingKeys (0, 0, 0) 10)).server.next.wg + 1 ∧
      (checkKey (midState blockServer (blockReturned.take 26) loneReturned
        (SurroundingKeys (0, 0, 0) 10)) (0, 0, 0)).server.next.requestsInflight =
        (midState blockServer (blockReturned.take 26) loneReturned
          (SurroundingKeys (0, 0, 0) 10)).server.next.requestsInflight ++ [(0, 0, 0)] :=
  have hp : lookaheadPredicate
      (midState blockServer (blockReturned.take 26) loneReturned (SurroundingKeys (0, 0, 0) 10))
      (0, 0, 0) 27 :=
    ⟨⟨_, centre_check.1, by simp⟩, le_refl 27, by rw [centre_check.2.2.1]; simp [newStepState]⟩
  ⟨centre_check.2.2.2, hp, centre_check.2.1,
   (lookahead_predicate _ (0, 0, 0)).2.1 (by rw [centre_check.2.1]; exact hp)⟩

/-! ## C3: the contents of a dispatched batch -/

theorem consume_containment (s : Server) (returned : List CellComputeBatch) :
    ∀ k bucket, (consume s returned).nextBuckets.find k = some bucket →
      ∀ c ∈ bucket, bucketKeyFor c s.BucketWidth = k := by
  intro k bucket hf c hc
  rw [consume_find] at hf
  split at hf
  · exact absurd hf (by simp)
  · simp only [Option.some.injEq] at hf
    rw [← hf, List.mem_filter] at hc
    simpa using hc.2

theorem CreateBuckets_containment (cells : List Cell) (w : Nat) :
    ∀ k bucket, (CreateBuckets cells w).find k = some bucket →
      ∀ c ∈ bucket, bucketKeyFor c w = k := by
  intro k bucket hf c hc
  rw [find_CreateBuckets] at hf
  split at hf
  · exact absurd hf (by simp)
  · simp only [Option.some.injEq] at hf
    rw [← hf, List.mem_filter] at hc
    simpa using hc.2

theorem loopBatches_mem (s : Server) (hk : s.CellBuckets.keys.Nodup) :
    ∀ d ∈ loopBatches s s.CellBuckets,
      s.CellBuckets.find d.BatchKey = some d.CellsToCompute ∧ d.TimeStep = s.TimeStep ∧
      d.BatchKey ∉ s.current.requestsInflight ∧
      d.CellsInProximity =
        (SurroundingKeys d.BatchKey s.BucketWidth).flatMap s.CellBuckets.cellsAt := by
  intro d hd
  simp only [loopBatches, List.mem_map, List.mem_filter, decide_eq_true_eq] at hd
  obtain ⟨e, ⟨he, hin⟩, rfl⟩ := hd
  exact ⟨Buckets.find_of_mem _ hk e he, rfl, hin, surroundingCellsOf_eq _ _ _⟩

theorem lookaheadCallsOf_mem (s : Server) (pre : List CellComputeBatch) (b : CellComputeBatch) :
    ∀ d ∈ lookaheadCallsOf (consume s pre) b,
      (consume s (pre ++ [b])).nextBuckets.find d.BatchKey = some d.CellsToCompute ∧
      d.CellsToCompute ≠ [] ∧
      d.TimeStep = s.TimeStep + 1 ∧
      d.CellsInProximity =
        (SurroundingKeys d.BatchKey s.BucketWidth).flatMap
          (consume s (pre ++ [b])).nextBuckets.cellsAt := by
  intro d hd
  obtain ⟨_, _, bucket, h1, h2, h3⟩ := (processBatch_calls _ b).2 d hd
  have hm : (consume s (pre ++ [b])).nextBuckets =
      (mergeReturned (consume s pre) b).nextBuckets := by
    rw [consume_concat]
    exact (processBatch_frame _ b).1
  have hw : (mergeReturned (consume s pre) b).server.BucketWidth = s.BucketWidth :=
    consume_width s pre
  have ht : (mergeReturned (consume s pre) b).server.TimeStep = s.TimeStep :=
    (consume_frame s pre).2.1
  have hcells : d.CellsToCompute = bucket := by
    rw [h3]
    rfl
  refine ⟨?_, ?_, ?_, ?_⟩
  · rw [hm, hcells]
    exact h1
  · rw [hcells]
    exact h2
  · rw [h3]
    simp only [nextBatch]
    rw [ht]
  · rw [hm]
    have hp := nextBatch_proximity (mergeReturned (consume s pre) b) d.BatchKey bucket
    rw [hw, ← h3] at hp
    exact hp

/-- C3 (batch contents). The dispatch loop of `step` issues the batches
`loopBatches`; each is for the current time step, its cells to compute are the
bucket of its key in the current bucket map and its cells in proximity are the
buckets of the surrounding keys that exist in that map, concatenated. Each batch
that the lookahead issues while it processes the returned batch `b`, received
after the batches `pre`, is for the next time step and is built in the same way
from `nextBuckets` as it stands once `b` is merged. In both cases a cell in
proximity belongs to no bucket of that map other than those of the surrounding
keys: not to the bucket of the key itself, not to the bucket of a key further
away. The current bucket map is taken with one entry per key and every cell under
the key of its position. -/
theorem batch_contents (s : Server) (hk : s.CellBuckets.keys.Nodup)
    (hc : ∀ k bucket, s.CellBuckets.find k = some bucket →
      ∀ c ∈ bucket, bucketKeyFor c s.BucketWidth = k)
    (pre : List CellComputeBatch) (b : CellComputeBatch) :
    (dispatchLoop s).current.calls = s.current.calls ++ loopBatches s s.CellBuckets ∧
    (∀ d ∈ loopBatches s s.CellBuckets,
      s.CellBuckets.find d.BatchKey = some d.CellsToCompute ∧
      d.TimeStep = s.TimeStep ∧
      d.CellsInProximity =
        (SurroundingKeys d.BatchKey s.BucketWidth).flatMap s.CellBuckets.cellsAt ∧
      ∀ c ∈ d.CellsInProximity, ∀ k bucket, s.CellBuckets.find k = some bucket → c ∈ bucket →
        k ≠ d.BatchKey ∧ k ∈ SurroundingKeys d.BatchKey s.BucketWidth) ∧
    (∀ d ∈ lookaheadCallsOf (consume s pre) b,
      (consume s (pre ++ [b])).nextBuckets.find d.BatchKey = some d.CellsToCompute ∧
      d.TimeStep = s.TimeStep + 1 ∧
      d.CellsInProximity =
        (SurroundingKeys d.BatchKey s.BucketWidth).flatMap
          (consume s (pre ++ [b])).nextBuckets.cellsAt ∧
      ∀ c ∈ d.CellsInProximity, ∀ k bucket,
        (consume s (pre ++ [b])).nextBuckets.find k = some bucket → c ∈ bucket →
        k ≠ d.BatchKey ∧ k ∈ SurroundingKeys d.BatchKey s.BucketWidth) := by
  refine ⟨(dispatchLoop_spec s).1, ?_, ?_⟩
  · intro d hd
    obtain ⟨h1, h2, _, h4⟩ := loopBatches_mem s hk d hd
    refine ⟨h1, h2, h4, ?_⟩
    intro c hcm k bucket hf hin
    rw [h4] at hcm
    have hs := proximity_only_neighbours s.CellBuckets s.BucketWidth d.BatchKey hc c hcm k
      bucket hf hin
    refine ⟨?_, hs⟩
    intro e
    rw [e] at hs
    exact self_not_mem_SurroundingKeys _ _ hs
  · intro d hd
    obtain ⟨h1, _, h2, h4⟩ := lookaheadCallsOf_mem s pre b d hd
    refine ⟨h1, h2, h4, ?_⟩
    intro c hcm k bucket hf hin
    rw [h4] at hcm
    have hs := proximity_only_neighbours _ s.BucketWidth d.BatchKey
      (consume_containment s (pre ++ [b])) c hcm k bucket hf hin
    refine ⟨?_, hs⟩
    intro e
    rw [e] at hs
    exact self_not_mem_SurroundingKeys _ _ hs

/-- Witness of C3: the seed of scenario S1, and the batch of bucket `(0, 0, 0)`
returned first. -/
theorem batch_contents_witness :
    seedServer.CellBuckets.keys.Nodup ∧
    (dispatchLoop seedServer).current.calls =
      seedServer.current.calls ++ loopBatches seedServer seedServer.CellBuckets ∧
    loopBatches seedServer seedServer.CellBuckets =
      [⟨[⟨1, 1, 1, 0⟩, ⟨2, 2, 2, 1⟩], [⟨11, 1, 1, 2⟩], 0, (0, 0, 0)⟩,
       ⟨[⟨11, 1, 1, 2⟩], [⟨1, 1, 1, 0⟩, ⟨2, 2, 2, 1⟩], 0, (1, 0, 0)⟩] :=
  ⟨by decide,
   (batch_contents seedServer (by decide)
      (CreateBuckets_containment seedCells 10)
      [] ⟨[⟨1, 1, 1, 0⟩, ⟨2, 2, 2, 1⟩], [], 0, (0, 0, 0)⟩).1,
   by decide⟩

/-! ## C5: scenario S5, a lone bucket -/

theorem foldl_checkKey_idle (ks : List BucketKey) (hnd : ks.Nodup) (st : Consumer)
    (h : ∀ k ∈ ks, st.doneNeighbourBuckets k + 1 < 27) :
    (ks.foldl checkKey st).server = st.server := by
  induction ks generalizing st with
  | nil => rfl
  | cons a ks ih =>
    rw [List.nodup_cons] at hnd
    rw [List.foldl_cons, ih hnd.2]
    · apply checkKey_nofire
      rintro ⟨_, _, _, hc, _⟩
      have := h a (List.mem_cons_self _ _)
      omega
    · intro k hk
      have hne : k ≠ a := by
        intro e
        rw [e] at hk
        exact hnd.1 hk
      rw [checkKey_done, Function.update_noteq hne]
      exact h k (List.mem_cons_of_mem _ hk)

/-- Counterexample to C5: in scenario S5 (width 10, one cell at `(1, 1, 1)`, an
echoing worker) the step issues one call; once its result is processed, and
before `Cycle`, the lookahead has issued no call and the key `(0, 0, 0)` is not
in flight on the next slot. -/
theorem lone_bucket_not_in_flight :
    (dispatchLoop loneServer).current.calls = [⟨[⟨1, 1, 1, 0⟩], [], 0, (0, 0, 0)⟩] ∧
    ((0, 0, 0) : BucketKey) ∉
      (processReturnedBatches (dispatchLoop loneServer)
        ((dispatchLoop loneServer).current.calls.map (callWorker echoWorker))).next.requestsInflight ∧
    lookaheadCalls (dispatchLoop loneServer)
      ((dispatchLoop loneServer).current.calls.map (callWorker echoWorker)) = [] := by
  decide

/-- C5 as amended. When the bucket map is the single bucket `key`, the step
issues one call; once the batch returned for it is processed, whatever the worker
returns, the counter of `key` is 1, the lookahead has issued no call and the next
slot is as fresh as before: `key` is not in flight there when `Cycle` runs. -/
theorem lone_bucket_no_lookahead (width : Nat) (key : BucketKey) (cells : List Cell)
    (worker : Worker) :
    (dispatchLoop (NewSimulationState width [(key, cells)])).current.calls =
      [currentBatch (NewSimulationState width [(key, cells)]) (key, cells)] ∧
    (consume (dispatchLoop (NewSimulationState width [(key, cells)]))
      [callWorker worker
        (currentBatch (NewSimulationState width [(key, cells)]) (key, cells))]).doneNeighbourBuckets
      key = 1 ∧
    lookaheadCalls (dispatchLoop (NewSimulationState width [(key, cells)]))
      [callWorker worker
        (currentBatch (NewSimulationState width [(key, cells)]) (key, cells))] = [] ∧
    (processReturnedBatches (dispatchLoop (NewSimulationState width [(key, cells)]))
      [callWorker worker
        (currentBatch (NewSimulationState width [(key, cells)]) (key, cells))]).next =
      newStepState := by
  have hloop : dispatchLoop (NewSimulationState width [(key, cells)]) =
      (NewSimulationState width [(key, cells)]).dispatchCurrent
        (currentBatch (NewSimulationState width [(key, cells)]) (key, cells)) := by
    simp [dispatchLoop, dispatchOne, NewSimulationState, Server.RequestInflightFromLastStep,
      newStepState]
  have hserver : ∀ (s : Server) (b : CellComputeBatch), (consume s [b]).server = s := by
    intro s b
    have h0 : consume s [b] = processBatch (consume s []) b := consume_concat s [] b
    have h1 : consume s [] = startConsumer s := by simp [consume]
    rw [h0, h1]
    unfold processBatch
    rw [foldl_checkKey_idle _ (keysToCheck_nodup _ _)]
    · simp [mergeReturned, startConsumer]
    · intro k _
      simp [mergeReturned, startConsumer]
  refine ⟨?_, ?_, ?_, ?_⟩
  · rw [hloop]
    simp [Server.dispatchCurrent, NewSimulationState, newStepState]
  · rw [consume_done]
    simp [callWorker, currentBatch, keysToCheck]
  · unfold lookaheadCalls
    rw [hserver]
    simp
  · unfold processReturnedBatches
    simp only
    rw [hserver, hloop]
    simp [Server.dispatchCurrent, NewSimulationState]

/-! ## C9: scenario S6, a signal during a step -/

/-- Counterexample to C9: the seed of S1 with an echoing worker; no signal is
buffered when the first iteration tests for one, a signal arrives during the step
and is found by the second iteration. The step has run `Cycle` and has broadcast
its result before the connections are closed and `saveState` is called. -/
theorem signal_mid_step_cycles :
    (Run echoWorker [(false, (dispatchLoop seedServer).current.calls, 28), (true, [], 0)]
      seedServer).map (fun s => (s.TimeStep, s.events)) =
      some (1, [Event.cycle,
        Event.broadcast [⟨1, 1, 1, 0⟩, ⟨2, 2, 2, 1⟩, ⟨11, 1, 1, 2⟩],
        Event.closeConnections, Event.saveState]) := by
  decide!

/-- C9 as amended. When a signal arrives while a step is in progress (none was
buffered when the iteration tested for one, and one is when the next iteration
does), the step runs to its end: `Cycle`, the increment of the time step and the
broadcast all happen, wherever `Cycle` falls in the work of the consumer. At the
top of the next iteration, if cells remain, the loop is left, the connections are
closed and `saveState` is called; if no cell remains, `Run` returns after closing
the connections and `saveState` is not called. -/
theorem signal_mid_step (worker : Worker) (arrivals arrivals2 : List CellComputeBatch)
    (cycleAt cycleAt2 : Nat) (ticks : List (Bool × List CellComputeBatch × Nat)) (s : Server)
    (hcells : s.CellBuckets.AllCells ≠ []) :
    ((stepWith worker arrivals cycleAt s).CellBuckets.AllCells ≠ [] →
      Run worker ((false, arrivals, cycleAt) :: (true, arrivals2, cycleAt2) :: ticks) s =
        some (stepWith worker arrivals cycleAt s).shutdown ∧
      (stepWith worker arrivals cycleAt s).shutdown.TimeStep = s.TimeStep + 1 ∧
      (stepWith worker arrivals cycleAt s).shutdown.events =
        s.events ++ [Event.cycle,
          Event.broadcast (stepWith worker arrivals cycleAt s).CellBuckets.AllCells,
          Event.closeConnections, Event.saveState]) ∧
    ((stepWith worker arrivals cycleAt s).CellBuckets.AllCells = [] →
      Run worker ((false, arrivals, cycleAt) :: (true, arrivals2, cycleAt2) :: ticks) s =
        some (stepWith worker arrivals cycleAt s).closeConnections ∧
      (stepWith worker arrivals cycleAt s).closeConnections.events =
        s.events ++ [Event.cycle, Event.broadcast [], Event.closeConnections]) := by
  obtain ⟨f1, _, f3, f7⟩ := stepWith_result worker arrivals cycleAt s
  have hlen : ¬ s.CellBuckets.AllCells.length = 0 := by
    intro h
    exact hcells (List.length_eq_zero.1 h)
  constructor
  · intro h2
    have hlen2 : ¬ (stepWith worker arrivals cycleAt s).CellBuckets.AllCells.length = 0 := by
      intro h
      exact h2 (List.length_eq_zero.1 h)
    refine ⟨?_, ?_, ?_⟩
    · simp [Run, hlen, hlen2]
    · simpa [Server.shutdown, Server.closeConnections] using f1
    · simp only [Server.shutdown, Server.closeConnections, f7, f3]
      simp
  · intro h2
    have hlen2 : (stepWith worker arrivals cycleAt s).CellBuckets.AllCells.length = 0 := by
      rw [h2]
      rfl
    refine ⟨?_, ?_⟩
    · simp [Run, hlen, hlen2]
    · rw [f3] at h2
      simp only [Server.closeConnections, f7, h2]
      simp

/-- Witness of C9 as amended: the seed of S1, `Cycle` running when the consumer
has processed the first of the two batches. -/
theorem signal_mid_step_witness :
    seedServer.CellBuckets.AllCells ≠ [] ∧
    ((stepWith echoWorker (dispatchLoop seedServer).current.calls 28
        seedServer).CellBuckets.AllCells ≠ [] →
      Run echoWorker [(false, (dispatchLoop seedServer).current.calls, 28), (true, [], 0)]
        seedServer =
        some (stepWith echoWorker (dispatchLoop seedServer).current.calls 28
          seedServer).shutdown) :=
  ⟨by decide,
   fun h => ((signal_mid_step echoWorker (dispatchLoop seedServer).current.calls [] 28 0 []
      seedServer (by decide)).1 h).1⟩

/-! ## C6: the retry loop of `callCIS` -/

theorem callCISLoop_cons_none (rpc : Rpc) (batch : CellComputeBatch) (c : Client)
    (rest : List Client) (st : CallState) (h : rpc st.attempts c batch = none) :
    callCISLoop rpc batch (c :: rest) st =
      callCISLoop rpc batch rest
        { st with pool := rest, attempts := st.attempts + 1,
                  CISClientCount := st.CISClientCount - 1 } := by
  simp [callCISLoop, h]

theorem callCISLoop_cons_some (rpc : Rpc) (batch : CellComputeBatch) (c : Client)
    (rest : List Client) (st : CallState) (r : CellComputeBatch)
    (h : rpc st.attempts c batch = some r) :
    callCISLoop rpc batch (c :: rest) st =
      some { st with pool := rest ++ [c],
                     returnedBatchChan := st.returnedBatchChan ++ [r],
                     attempts := st.attempts + 1 } := by
  simp [callCISLoop, h]

theorem callCISLoop_retry (rpc : Rpc) (batch : CellComputeBatch) (failed : List Client)
    (good : Client) (rest : List Client) (r : CellComputeBatch) (st : CallState)
    (hfail : ∀ i (h : i < failed.length),
      rpc (st.attempts + i) (failed.get ⟨i, h⟩) batch = none)
    (hok : rpc (st.attempts + failed.length) good batch = some r) :
    ∃ st1, callCISLoop rpc batch (failed ++ good :: rest) st = some st1 ∧
      st1.pool = rest ++ [good] ∧
      st1.returnedBatchChan = st.returnedBatchChan ++ [r] ∧
      st1.wg = st.wg ∧
      st1.attempts = st.attempts + failed.length + 1 ∧
      st1.CISCallCounter = st.CISCallCounter ∧
      st1.CISClientCount = st.CISClientCount - failed.length := by
  induction failed generalizing st with
  | nil =>
    simp only [List.length_nil, Nat.add_zero] at hok
    rw [List.nil_append, callCISLoop_cons_some rpc batch good rest st r hok]
    exact ⟨_, rfl, rfl, rfl, rfl, rfl, rfl, by simp⟩
  | cons c cs ih =>
    have h0 : rpc st.attempts c batch = none := hfail 0 (by simp)
    rw [List.cons_append, callCISLoop_cons_none rpc batch c _ st h0]
    have hf2 : ∀ i (h : i < cs.length),
        rpc (st.attempts + 1 + i) (cs.get ⟨i, h⟩) batch = none := by
      intro i h
      have := hfail (i + 1) (by simp; omega)
      simp only [List.get_cons_succ] at this
      rw [← this]
      congr 1
      omega
    have hok2 : rpc (st.attempts + 1 + cs.length) good batch = some r := by
      rw [← hok]
      congr 1
      simp only [List.length_cons]
      omega
    obtain ⟨st1, e, h1, h2, h3, h4, h5, h6⟩ :=
      ih { st with pool := cs ++ good :: rest, attempts := st.attempts + 1,
                   CISClientCount := st.CISClientCount - 1 } hf2 hok2
    refine ⟨st1, e, h1, h2, h3, ?_, h5, ?_⟩
    · rw [h4]
      simp only [List.length_cons]
      omega
    · rw [h6]
      simp only [List.length_cons]
      push_cast
      ring

/-- C6 (retry termination). If the pool holds the clients `failed`, then `good`,
then `rest`, the `n` calls made with the clients of `failed` all fail and the call
made with `good`, attempt `n+1`, succeeds with the batch `r`, then `callCIS`
returns after exactly `n+1` attempts: `r` alone is pushed on the result channel,
the wait counter is decremented once, `good` alone is put back, at the end of the
pool, the `n` failed clients are gone from it and the pool is smaller by `n`. -/
theorem retry_termination (rpc : Rpc) (batch : CellComputeBatch) (st : CallState) (n : Nat)
    (failed : List Client) (good : Client) (rest : List Client) (r : CellComputeBatch)
    (hpool : st.pool = failed ++ good :: rest) (hn : failed.length = n)
    (hfail : ∀ i (h : i < failed.length),
      rpc (st.attempts + i) (failed.get ⟨i, h⟩) batch = none)
    (hok : rpc (st.attempts + n) good batch = some r) :
    ∃ st1, callCIS rpc batch st = some st1 ∧
      st1.attempts = st.attempts + n + 1 ∧
      st1.returnedBatchChan = st.returnedBatchChan ++ [r] ∧
      st1.wg = st.wg - 1 ∧
      st1.pool = rest ++ [good] ∧
      st1.pool.length + n = st.pool.length ∧
      st1.CISClientCount = st.CISClientCount - n ∧
      st1.CISCallCounter = st.CISCallCounter + 1 := by
  subst hn
  obtain ⟨st1, e, h1, h2, h3, h4, h5, h6⟩ := callCISLoop_retry rpc batch failed good rest r
    { st with CISCallCounter := st.CISCallCounter + 1 } hfail hok
  refine ⟨{ st1 with wg := st1.wg - 1 }, ?_, h4, h2, ?_, h1, ?_, h6, h5⟩
  · rw [← hpool] at e
    unfold callCIS
    rw [e]
  · show st1.wg - 1 = st.wg - 1
    rw [h3]
  · show st1.pool.length + failed.length = st.pool.length
    rw [h1, hpool]
    simp only [List.length_append, List.length_cons, List.length_nil]
    omega

/-- Witness of C6, scenario S4: two clients in the pool, the first one errors on
the first attempt; the pool has two clients before and one after. -/
theorem retry_termination_witness :
    ∃ st1,
      callCIS (fun attempt c b =>
          if c.id = 0 ∧ attempt = 0 then none else some (callWorker echoWorker b))
        loneReturned ⟨[⟨0⟩, ⟨1⟩], [], 1, 0, 0, 2⟩ = some st1 ∧
      st1.attempts = 0 + 1 + 1 ∧
      st1.returnedBatchChan = [] ++ [callWorker echoWorker loneReturned] ∧
      st1.wg = 1 - 1 ∧
      st1.pool = [] ++ [⟨1⟩] ∧
      st1.pool.length + 1 = 2 ∧
      st1.CISClientCount = 2 - (1 : Nat) ∧
      st1.CISCallCounter = 0 + 1 :=
  retry_termination
    (fun attempt c b => if c.id = 0 ∧ attempt = 0 then none else some (callWorker echoWorker b))
    loneReturned ⟨[⟨0⟩, ⟨1⟩], [], 1, 0, 0, 2⟩ 1 [⟨0⟩] ⟨1⟩ [] (callWorker echoWorker loneReturned)
    rfl rfl (by decide) (by decide)

/-! ## C7: the order of arrival -/

theorem mem_consume_keys (s : Server) (returned : List CellComputeBatch) (k : BucketKey) :
    k ∈ (consume s returned).nextBuckets.keys ↔
      ∃ c ∈ cellsOf returned, bucketKeyFor c s.BucketWidth = k := by
  rw [Buckets.mem_keys_iff, consume_find]
  constructor
  · intro h
    by_cases hf : (cellsOf returned).filter (fun c => bucketKeyFor c s.BucketWidth = k) = []
    · simp [hf] at h
    · obtain ⟨c, hc⟩ := List.exists_mem_of_ne_nil _ hf
      rw [List.mem_filter] at hc
      exact ⟨c, hc.1, by simpa using hc.2⟩
  · rintro ⟨c, hc, hk⟩
    have hf : (cellsOf returned).filter (fun c => bucketKeyFor c s.BucketWidth = k) ≠ [] := by
      intro h
      have : c ∈ (cellsOf returned).filter (fun c => bucketKeyFor c s.BucketWidth = k) := by
        rw [List.mem_filter]
        exact ⟨hc, by simpa using hk⟩
      rw [h] at this
      simp at this
    simp [hf]

theorem cellsOf_perm (r1 r2 : List CellComputeBatch) (h : r1.Perm r2) :
    (cellsOf r1).Perm (cellsOf r2) :=
  List.Perm.flatMap_right _ h

/-- Counterexample to C7: two returned batches of distinct origins whose cells
land in the same bucket; the merged bucket lists the cells in the order of
arrival, so the two orders of arrival give different bucket maps. -/
theorem merge_order_visible :
    (processReturnedBatches loneServer
      [⟨[⟨1, 1, 1, 0⟩], [], 0, (0, 0, 0)⟩, ⟨[⟨2, 2, 2, 1⟩], [], 0, (1, 0, 0)⟩]).CellBuckets =
      [((0, 0, 0), [⟨1, 1, 1, 0⟩, ⟨2, 2, 2, 1⟩])] ∧
    (processReturnedBatches loneServer
      [⟨[⟨2, 2, 2, 1⟩], [], 0, (1, 0, 0)⟩, ⟨[⟨1, 1, 1, 0⟩], [], 0, (0, 0, 0)⟩]).CellBuckets =
      [((0, 0, 0), [⟨2, 2, 2, 1⟩, ⟨1, 1, 1, 0⟩])] ∧
    (processReturnedBatches loneServer
      [⟨[⟨1, 1, 1, 0⟩], [], 0, (0, 0, 0)⟩, ⟨[⟨2, 2, 2, 1⟩], [], 0, (1, 0, 0)⟩]).CellBuckets ≠
    (processReturnedBatches loneServer
      [⟨[⟨2, 2, 2, 1⟩], [], 0, (1, 0, 0)⟩, ⟨[⟨1, 1, 1, 0⟩], [], 0, (0, 0, 0)⟩]).CellBuckets := by
  decide

/-- C7 as amended. Processing the same returned batches in two orders of arrival
gives bucket maps with the same keys, each key once, and under each key the same
cells up to their order inside the bucket. -/
theorem merge_confluence (s : Server) (r1 r2 : List CellComputeBatch) (h : r1.Perm r2) :
    (∀ k, k ∈ (processReturnedBatches s r1).CellBuckets.keys ↔
      k ∈ (processReturnedBatches s r2).CellBuckets.keys) ∧
    (processReturnedBatches s r1).CellBuckets.keys.Nodup ∧
    (processReturnedBatches s r2).CellBuckets.keys.Nodup ∧
    (∀ k, ((processReturnedBatches s r1).CellBuckets.cellsAt k).Perm
      ((processReturnedBatches s r2).CellBuckets.cellsAt k)) := by
  have hp := cellsOf_perm r1 r2 h
  refine ⟨?_, consume_keys_nodup s r1, consume_keys_nodup s r2, ?_⟩
  · intro k
    show k ∈ (consume s r1).nextBuckets.keys ↔ k ∈ (consume s r2).nextBuckets.keys
    rw [mem_consume_keys, mem_consume_keys]
    constructor
    · rintro ⟨c, hc, hk⟩
      exact ⟨c, hp.subset hc, hk⟩
    · rintro ⟨c, hc, hk⟩
      exact ⟨c, hp.symm.subset hc, hk⟩
  · intro k
    show ((consume s r1).nextBuckets.cellsAt k).Perm ((consume s r2).nextBuckets.cellsAt k)
    rw [consume_cellsAt, consume_cellsAt]
    exact hp.filter _

/-- Witness of C7 as amended: the two orders of the counterexample. -/
theorem merge_confluence_witness :
    List.Perm
      [(⟨[⟨1, 1, 1, 0⟩], [], 0, (0, 0, 0)⟩ : CellComputeBatch), ⟨[⟨2, 2, 2, 1⟩], [], 0, (1, 0, 0)⟩]
      [⟨[⟨2, 2, 2, 1⟩], [], 0, (1, 0, 0)⟩, ⟨[⟨1, 1, 1, 0⟩], [], 0, (0, 0, 0)⟩] ∧
    ∀ k, ((processReturnedBatches loneServer
      [⟨[⟨1, 1, 1, 0⟩], [], 0, (0, 0, 0)⟩, ⟨[⟨2, 2, 2, 1⟩], [], 0, (1, 0, 0)⟩]).CellBuckets.cellsAt
        k).Perm
      ((processReturnedBatches loneServer
      [⟨[⟨2, 2, 2, 1⟩], [], 0, (1, 0, 0)⟩, ⟨[⟨1, 1, 1, 0⟩], [], 0, (0, 0, 0)⟩]).CellBuckets.cellsAt
        k) :=
  ⟨List.Perm.swap _ _ [],
   (merge_confluence loneServer _ _ (List.Perm.swap _ _ [])).2.2.2⟩

/-! ## C8: the result of one step -/

theorem foldl_append_snd (b : Buckets) (acc : List Cell) :
    b.foldl (fun acc p => acc ++ p.2) acc = acc ++ b.flatMap (fun p => p.2) := by
  induction b generalizing acc with
  | nil => simp
  | cons p rest ih => simp [List.foldl_cons, ih, List.flatMap_cons]

theorem Buckets.AllCells_cons (p : BucketKey × List Cell) (rest : Buckets) :
    Buckets.AllCells (p :: rest) = p.2 ++ Buckets.AllCells rest := by
  simp [Buckets.AllCells, foldl_append_snd, List.flatMap_cons]

theorem Buckets.AllCells_add (b : Buckets) (k : BucketKey) (cs : List Cell) :
    (b.add k cs).AllCells.Perm (b.AllCells ++ cs) := by
  induction b with
  | nil => simp [Buckets.add, Buckets.AllCells]
  | cons p rest ih =>
    obtain ⟨k1, v1⟩ := p
    by_cases h : k1 = k
    · simp only [Buckets.add, h, if_true, Buckets.AllCells_cons]
      rw [List.append_assoc, List.append_assoc]
      exact List.Perm.append_left _ List.perm_append_comm
    · simp only [Buckets.add, h, if_false, Buckets.AllCells_cons]
      rw [List.append_assoc]
      exact List.Perm.append_left _ ih

theorem Buckets.AllCells_foldl_add (w : Nat) (cells : List Cell) (b : Buckets) :
    (cells.foldl (fun b c => b.add (bucketKeyFor c w) [c]) b).AllCells.Perm
      (b.AllCells ++ cells) := by
  induction cells generalizing b with
  | nil => simp
  | cons c cs ih =>
    rw [List.foldl_cons]
    refine (ih _).trans ?_
    have := (Buckets.AllCells_add b (bucketKeyFor c w) [c]).append_right cs
    simpa using this

theorem AllCells_CreateBuckets (cells : List Cell) (w : Nat) :
    (CreateBuckets cells w).AllCells.Perm cells := by
  have := Buckets.AllCells_foldl_add w cells []
  simpa [CreateBuckets, Buckets.AllCells] using this

theorem Buckets.AllCells_Merge (src dst : Buckets) :
    (dst.Merge src).AllCells.Perm (dst.AllCells ++ src.AllCells) := by
  induction src generalizing dst with
  | nil => simp [Buckets.Merge, Buckets.AllCells]
  | cons p rest ih =>
    have h1 := ih (dst.add p.1 p.2)
    simp only [Buckets.Merge, List.foldl_cons] at h1 ⊢
    refine h1.trans ?_
    rw [Buckets.AllCells_cons, ← List.append_assoc]
    exact (Buckets.AllCells_add dst p.1 p.2).append_right _

theorem consume_AllCells (s : Server) (returned : List CellComputeBatch) :
    (consume s returned).nextBuckets.AllCells.Perm (cellsOf returned) := by
  induction returned using List.reverseRecOn with
  | nil => simp [consume, startConsumer, cellsOf, Buckets.AllCells]
  | append_singleton pre b ih =>
    rw [consume_concat, processBatch_nextBuckets, cellsOf_concat]
    exact (Buckets.AllCells_Merge _ _).trans (ih.append (AllCells_CreateBuckets _ _))

theorem cellsOf_map_callWorker (worker : Worker) (calls : List CellComputeBatch) :
    cellsOf (calls.map (callWorker worker)) = calls.flatMap worker := by
  simp [cellsOf, callWorker, List.flatMap_map]

theorem loopBatches_all (s : Server) (h : s.current.requestsInflight = []) :
    loopBatches s s.CellBuckets = s.CellBuckets.map (currentBatch s) := by
  simp [loopBatches, h]

/-- C8 (result of one step). Take a server with no key in flight from a previous
lookahead and no call outstanding on the current slot, and let the results of the
calls of the step arrive in any order, `Cycle` falling anywhere in the work of
the consumer. The step issues one call per bucket of the map. When it returns,
the time step has increased by exactly 1 and the live bucket map holds exactly
the cells that the workers returned for these calls, each under the key computed
from its position with the bucket width: the map has one bucket for every key
that some returned cell has and no other, each key once, the bucket of a key
holds the returned cells of that key, and all buckets together hold the returned
cells, none lost and none twice. -/
theorem step_result (worker : Worker) (arrivals : List CellComputeBatch) (cycleAt : Nat)
    (s : Server)
    (hin : s.current.requestsInflight = []) (hcalls : s.current.calls = [])
    (hperm : arrivals.Perm (dispatchLoop s).current.calls) :
    (stepWith worker arrivals cycleAt s).TimeStep = s.TimeStep + 1 ∧
    (dispatchLoop s).current.calls = s.CellBuckets.map (currentBatch s) ∧
    (∀ k, k ∈ (stepWith worker arrivals cycleAt s).CellBuckets.keys ↔
      ∃ c ∈ (s.CellBuckets.map (currentBatch s)).flatMap worker,
        bucketKeyFor c s.BucketWidth = k) ∧
    (stepWith worker arrivals cycleAt s).CellBuckets.keys.Nodup ∧
    (∀ k, ((stepWith worker arrivals cycleAt s).CellBuckets.cellsAt k).Perm
      (((s.CellBuckets.map (currentBatch s)).flatMap worker).filter
        (fun c => bucketKeyFor c s.BucketWidth = k))) ∧
    ((stepWith worker arrivals cycleAt s).CellBuckets.AllCells).Perm
      ((s.CellBuckets.map (currentBatch s)).flatMap worker) := by
  obtain ⟨f1, _, f3, _⟩ := stepWith_result worker arrivals cycleAt s
  obtain ⟨g1, _⟩ := dispatchLoop_spec s
  have hc : (dispatchLoop s).current.calls = s.CellBuckets.map (currentBatch s) := by
    rw [g1, hcalls, loopBatches_all s hin, List.nil_append]
  rw [hc] at hperm
  have hcells : (cellsOf (arrivals.map (callWorker worker))).Perm
      ((s.CellBuckets.map (currentBatch s)).flatMap worker) := by
    rw [cellsOf_map_callWorker]
    exact List.Perm.flatMap_right _ hperm
  refine ⟨f1, hc, ?_, ?_, ?_, ?_⟩
  · intro k
    rw [f3, mem_consume_keys]
    constructor
    · rintro ⟨c, h1, h2⟩
      exact ⟨c, hcells.subset h1, h2⟩
    · rintro ⟨c, h1, h2⟩
      exact ⟨c, hcells.symm.subset h1, h2⟩
  · rw [f3]
    exact consume_keys_nodup _ _
  · intro k
    rw [f3, consume_cellsAt]
    exact hcells.filter _
  · rw [f3]
    exact (consume_AllCells _ _).trans hcells

/-- Witness of C8, scenario S1: width 10, the seed `(1,1,1), (2,2,2), (11,1,1)` and
an echoing worker, `Cycle` running when the consumer has processed the first of
the two batches; the time step goes from 0 to 1 and the buckets `(0,0,0)` and
`(1,0,0)` hold 2 cells and 1 cell. -/
theorem step_result_witness :
    seedServer.TimeStep = 0 ∧
    (stepWith echoWorker (dispatchLoop seedServer).current.calls 28 seedServer).TimeStep =
      0 + 1 ∧
    (stepWith echoWorker (dispatchLoop seedServer).current.calls 28 seedServer).CellBuckets.map
      (fun p => (p.1, p.2.length)) = [((0, 0, 0), 2), ((1, 0, 0), 1)] :=
  ⟨rfl,
   (step_result echoWorker (dispatchLoop seedServer).current.calls 28 seedServer rfl rfl
      (List.Perm.refl _)).1,
   by decide!⟩

/-- Scenario S2: the worker moves `(2,2,2)` to `(12,2,2)`; after one step the
buckets `(0,0,0)` and `(1,0,0)` hold 1 cell and 2 cells, whether `Cycle` runs
before the consumer starts, between the two batches or after them. -/
theorem step_result_relocation :
    (stepWith movingWorker (dispatchLoop seedServer).current.calls 0 seedServer).TimeStep = 1 ∧
    (stepWith movingWorker (dispatchLoop seedServer).current.calls 0 seedServer).CellBuckets.map
      (fun p => (p.1, p.2.length)) = [((0, 0, 0), 1), ((1, 0, 0), 2)] ∧
    (stepWith movingWorker (dispatchLoop seedServer).current.calls 28 seedServer).CellBuckets.map
      (fun p => (p.1, p.2.length)) = [((0, 0, 0), 1), ((1, 0, 0), 2)] ∧
    (stepWith movingWorker (dispatchLoop seedServer).current.calls 56 seedServer).CellBuckets.map
      (fun p => (p.1, p.2.length)) = [((0, 0, 0), 1), ((1, 0, 0), 2)] := by
  decide!

/-! ## C10: is the bucket of a lookahead call final? -/

/-- A batch whose origin lies outside the closed neighbourhood of `k`, and whose
cells all stayed in the closed neighbourhood of their origin, adds nothing to the
bucket of `k`. -/
theorem consume_find_append (s : Server) (pre post : List CellComputeBatch) (k : BucketKey)
    (hnd : ((pre ++ post).map (fun b => b.BatchKey)).Nodup)
    (hloc : ∀ r ∈ post, ∀ c ∈ r.CellsToCompute,
      bucketKeyFor c s.BucketWidth ∈ keysToCheck r.BatchKey s.BucketWidth)
    (hrecv : ∀ a ∈ keysToCheck k s.BucketWidth, a ∈ pre.map (fun b => b.BatchKey)) :
    (consume s (pre ++ post)).nextBuckets.find k = (consume s pre).nextBuckets.find k := by
  have hnone : (cellsOf post).filter (fun c => bucketKeyFor c s.BucketWidth = k) = [] := by
    rw [List.filter_eq_nil_iff]
    intro c hc
    simp only [cellsOf, List.mem_flatMap] at hc
    obtain ⟨r, hr, hcr⟩ := hc
    simp only [decide_eq_true_eq]
    intro hk
    have h1 := hloc r hr c hcr
    rw [hk] at h1
    have h2 := hrecv _ ((keysToCheck_symm k r.BatchKey s.BucketWidth).1 h1)
    rw [List.map_append] at hnd
    have hdisj := (List.nodup_append.1 hnd).2.2
    exact hdisj h2 (List.mem_map_of_mem _ hr)
  rw [consume_find, consume_find]
  have : cellsOf (pre ++ post) = cellsOf pre ++ cellsOf post := by simp [cellsOf]
  rw [this, List.filter_append, hnone, List.append_nil]

/-- Every call of the lookahead was issued at a moment when the closed
neighbourhood of its key had been received and its cells were the bucket of its
key. -/
theorem lookahead_moment (s : Server) (pre : List CellComputeBatch)
    (hnd : (pre.map (fun b => b.BatchKey)).Nodup) :
    ∀ d ∈ lookaheadCalls s pre, ∃ p1 p2, pre = p1 ++ p2 ∧
      (consume s p1).nextBuckets.find d.BatchKey = some d.CellsToCompute ∧
      ∀ a ∈ keysToCheck d.BatchKey s.BucketWidth, a ∈ p1.map (fun b => b.BatchKey) := by
  induction pre using List.reverseRecOn with
  | nil =>
    intro d hd
    simp [lookaheadCalls, consume, startConsumer] at hd
  | append_singleton p b ih =>
    intro d hd
    have hd0 := hd
    rw [lookaheadCalls_concat] at hd
    rcases List.mem_append.1 hd with hd | hd
    · have hnd2 : (p.map (fun b => b.BatchKey)).Nodup := by
        rw [List.map_append] at hnd
        exact (List.nodup_append.1 hnd).1
      obtain ⟨p1, p2, e, h1, h2⟩ := ih hnd2 d hd
      exact ⟨p1, p2 ++ [b], by rw [e, List.append_assoc], h1, h2⟩
    · exact ⟨p ++ [b], [], by simp, (lookaheadCallsOf_mem s p b d hd).1,
        lookahead_neighbourhood_received s (p ++ [b]) hnd d hd0⟩

theorem processReturnedBatches_CellBuckets (s : Server) (returned : List CellComputeBatch) :
    (processReturnedBatches s returned).CellBuckets = (consume s returned).nextBuckets := rfl

theorem far_not_near : ((5, 0, 0) : BucketKey) ∉ keysToCheck (0, 0, 0) 10 := by
  decide!

theorem far_filter :
    (if (cellsOf (blockReturned ++ [farReturned])).filter
          (fun c => bucketKeyFor c blockServer.BucketWidth = (0, 0, 0)) = [] then none
      else some ((cellsOf (blockReturned ++ [farReturned])).filter
          (fun c => bucketKeyFor c blockServer.BucketWidth = (0, 0, 0)))) =
      some [⟨1, 1, 1, 0⟩, ⟨2, 2, 2, 7⟩] := by
  decide!

/-- Counterexample to C10: the 27 buckets around `(0, 0, 0)` return, each with its
cell, and the lookahead issues the call for `(0, 0, 0)` with the one cell of that
bucket; then the batch of the distant origin `(5, 0, 0)` arrives, whose worker
moved its cell into `(0, 0, 0)`. No origin is received twice. The bucket
installed at the end of the step has two cells, the call was sent with one. -/
theorem lookahead_bucket_not_final :
    ((blockReturned ++ [farReturned]).map (fun b => b.BatchKey)).Nodup ∧
    (lookaheadCalls blockServer blockReturned).map (fun d => (d.BatchKey, d.CellsToCompute)) =
      [((0, 0, 0), [⟨1, 1, 1, 0⟩])] ∧
    (processReturnedBatches blockServer (blockReturned ++ [farReturned])).CellBuckets.find
      (0, 0, 0) = some [⟨1, 1, 1, 0⟩, ⟨2, 2, 2, 7⟩] := by
  refine ⟨?_, blockReturned_lookahead, ?_⟩
  · rw [List.map_append, List.nodup_append]
    refine ⟨blockReturned_nodup, by simp, ?_⟩
    have h : blockReturned.map (fun b => b.BatchKey) = keysToCheck (0, 0, 0) 10 := by
      simp [blockReturned, blockKeys, Function.comp_def]
    rw [h]
    intro a ha hb
    have hb2 : a = (5, 0, 0) := by simpa [farReturned] using hb
    rw [hb2] at ha
    exact far_not_near ha
  · rw [processReturnedBatches_CellBuckets, consume_find]
    exact far_filter

/-- C10 as amended. Let the batches `pre` then `post` be the batches received in
one step, no origin key occurring twice, and let every returned cell lie in the
closed neighbourhood of the origin of its batch (a worker moves a cell by one
bucket at most). Then the cells sent with a call that the lookahead issues while
`pre` is consumed are the bucket of its key in the map installed at the end of
the step: no batch processed later adds a cell to it. -/
theorem lookahead_bucket_final (s : Server) (pre post : List CellComputeBatch)
    (hnd : ((pre ++ post).map (fun b => b.BatchKey)).Nodup)
    (hloc : ∀ r ∈ pre ++ post, ∀ c ∈ r.CellsToCompute,
      bucketKeyFor c s.BucketWidth = r.BatchKey ∨
      bucketKeyFor c s.BucketWidth ∈ SurroundingKeys r.BatchKey s.BucketWidth) :
    ∀ d ∈ lookaheadCalls s pre,
      (processReturnedBatches s (pre ++ post)).CellBuckets.find d.BatchKey =
        some d.CellsToCompute := by
  intro d hd
  have hnd1 : (pre.map (fun b => b.BatchKey)).Nodup := by
    rw [List.map_append] at hnd
    exact (List.nodup_append.1 hnd).1
  obtain ⟨p1, p2, e, h1, h2⟩ := lookahead_moment s pre hnd1 d hd
  rw [processReturnedBatches_CellBuckets]
  have e2 : pre ++ post = p1 ++ (p2 ++ post) := by rw [e, List.append_assoc]
  rw [e2] at hnd hloc ⊢
  rw [consume_find_append s p1 (p2 ++ post) d.BatchKey hnd ?_ h2]
  · exact h1
  · intro r hr c hc
    rw [mem_keysToCheck]
    exact (hloc r (List.mem_append_right _ hr) c hc).symm

theorem lateReturned_hyps :
    ((blockReturned ++ [lateReturned]).map (fun b => b.BatchKey)).Nodup ∧
    (∀ r ∈ blockReturned ++ [lateReturned], ∀ c ∈ r.CellsToCompute,
      bucketKeyFor c blockServer.BucketWidth = r.BatchKey ∨
      bucketKeyFor c blockServer.BucketWidth ∈
        SurroundingKeys r.BatchKey blockServer.BucketWidth) ∧
    (processReturnedBatches blockServer (blockReturned ++ [lateReturned])).CellBuckets.find
      (1, 0, 0) = some [⟨11, 1, 1, 0⟩, ⟨12, 2, 2, 8⟩] := by
  decide!

/-- Witness of C10 as amended: the 27 buckets around `(0, 0, 0)` return with their
cells and the lookahead issues its call for `(0, 0, 0)`; then the batch of origin
`(2, 0, 0)` is processed, whose worker moved its cell into the neighbouring
bucket `(1, 0, 0)`, which grows to two cells. The call for `(0, 0, 0)` was sent
with the bucket that the step installs. -/
theorem lookahead_bucket_final_witness :
    ((blockReturned ++ [lateReturned]).map (fun b => b.BatchKey)).Nodup ∧
    (∀ r ∈ blockReturned ++ [lateReturned], ∀ c ∈ r.CellsToCompute,
      bucketKeyFor c blockServer.BucketWidth = r.BatchKey ∨
      bucketKeyFor c blockServer.BucketWidth ∈
        SurroundingKeys r.BatchKey blockServer.BucketWidth) ∧
    (lookaheadCalls blockServer blockReturned).map (fun d => (d.BatchKey, d.CellsToCompute)) =
      [((0, 0, 0), [⟨1, 1, 1, 0⟩])] ∧
    (processReturnedBatches blockServer (blockReturned ++ [lateReturned])).CellBuckets.find
      (1, 0, 0) = some [⟨11, 1, 1, 0⟩, ⟨12, 2, 2, 8⟩] ∧
    ∀ d ∈ lookaheadCalls blockServer blockReturned,
      (processReturnedBatches blockServer (blockReturned ++ [lateReturned])).CellBuckets.find
        d.BatchKey = some d.CellsToCompute :=
  ⟨lateReturned_hyps.1, lateReturned_hyps.2.1, blockReturned_lookahead, lateReturned_hyps.2.2,
   lookahead_bucket_final blockServer blockReturned [lateReturned] lateReturned_hyps.1
    lateReturned_hyps.2.1⟩

end AlMaster
